import Mathlib

/-!
Verification of the tltd hierarchical task store (`src/models.py`, `src/app.py`).

Modelling conventions (shallow embedding of the Python source):

* Python `dict`s (the `baskets` mapping, the `_task_index`, persisted JSON
  documents) are association lists `List (String × α)` with insertion-order
  semantics: lookup finds the first (unique) binding, assignment replaces an
  existing binding in place or appends a new one, deletion removes the binding.
* The task tree is the mutual inductive `Task`/`TaskList` (Lean 4.14 does not
  compile structural recursion over a nested `List Task`).
* Python strings are Lean `String`s; the slice `s[:n]` is `pySlice n s`
  (a code-point prefix).  The `\d` character class of the basket-key regex is
  modelled as an ASCII digit; Python's `re` would additionally accept other
  Unicode decimal digits, which no claim here depends on.
* `datetime.now()` and the derived current-week keys are made explicit
  parameters (`PyDateTime`, `currentWeek : List String`); the store never
  inspects them except through the functions embedded here.
* `uuid.uuid4()` and `datetime.now().isoformat()` are only reached by
  `Task.from_dict` when a persisted record lacks `id`/`created_at`.  Such
  records are outside this model: `TaskDict` requires both fields (every
  record written by `to_dict` carries them).
* Python's `_task_index` holds aliases of the nodes living in `baskets`;
  mutating a node found through the index mutates the tree.  The pure model
  renders an in-place mutation of the node with id `i` as `mutate_at`, which
  rewrites every occurrence of id `i` in both `baskets` and `index`.  This
  coincides with the source's aliasing behaviour whenever ids are globally
  unique, which is the store invariant; theorems that need it carry the
  corresponding hypotheses.
-/

namespace Tltd

/-! ### Python dict model -/

def dictGet {α : Type} (l : List (String × α)) (k : String) : Option α :=
  match l with
  | [] => none
  | (k', v) :: rest => if k' = k then some v else dictGet rest k

def dictContains {α : Type} (l : List (String × α)) (k : String) : Bool :=
  (dictGet l k).isSome

def dictSet {α : Type} (l : List (String × α)) (k : String) (v : α) : List (String × α) :=
  match l with
  | [] => [(k, v)]
  | (k', v') :: rest => if k' = k then (k', v) :: rest else (k', v') :: dictSet rest k v

def dictErase {α : Type} (l : List (String × α)) (k : String) : List (String × α) :=
  match l with
  | [] => []
  | (k', v') :: rest => if k' = k then rest else (k', v') :: dictErase rest k

def dictKeys {α : Type} (l : List (String × α)) : List String :=
  l.map Prod.fst

/-! ### Constants from `models.py` -/

def MAX_TITLE_LENGTH : Nat := 512

def MAX_DESCRIPTION_LENGTH : Nat := 4096

def FIXED_BASKETS : List String := ["Inbox", "Later"]

def LEGACY_DAY_BASKETS : List String :=
  ["Monday", "Tuesday", "Wednesday", "Thursday", "Friday", "Saturday", "Sunday"]

def WEEK_TRANSITION_HOUR : Nat := 4

/-! ### The basket-key regex

`is_date_basket` runs `re.match(r'^\d{4}-\d{2}-\d{2}$', key)`.  We embed a
token-at-a-time matcher for this concrete pattern.  Python's `$` matches at
the very end of the string and also just before a final `'\n'`. -/

inductive RTok where
  | digit
  | lit (c : Char)

def datePattern : List RTok :=
  [.digit, .digit, .digit, .digit, .lit '-', .digit, .digit, .lit '-', .digit, .digit]

def matchToks : List RTok → List Char → Option (List Char)
  | [], cs => some cs
  | _ :: _, [] => none
  | .digit :: toks, c :: cs => if c.isDigit then matchToks toks cs else none
  | .lit c' :: toks, c :: cs => if c == c' then matchToks toks cs else none

def dollarEnd (cs : List Char) : Bool :=
  match cs with
  | [] => true
  | [c] => c == '\n'
  | _ => false

def is_date_basket (key : String) : Bool :=
  match matchToks datePattern key.data with
  | some rest => dollarEnd rest
  | none => false

/-! ### Task (`models.py` class `Task`) -/

mutual
inductive Task where
  | mk (id : String) (title : String) (completed : Bool) (collapsed : Bool)
       (children : TaskList) (created_at : String) (description : String)
inductive TaskList where
  | nil
  | cons (head : Task) (tail : TaskList)
end

def Task.id : Task → String
  | .mk i _ _ _ _ _ _ => i

def Task.title : Task → String
  | .mk _ t _ _ _ _ _ => t

def Task.completed : Task → Bool
  | .mk _ _ c _ _ _ _ => c

def Task.collapsed : Task → Bool
  | .mk _ _ _ c _ _ _ => c

def Task.children : Task → TaskList
  | .mk _ _ _ _ ch _ _ => ch

def Task.created_at : Task → String
  | .mk _ _ _ _ _ ca _ => ca

def Task.description : Task → String
  | .mk _ _ _ _ _ _ d => d

def TaskList.snoc : TaskList → Task → TaskList
  | .nil, c => .cons c .nil
  | .cons t ts, c => .cons t (TaskList.snoc ts c)

def TaskList.filter (p : Task → Bool) : TaskList → TaskList
  | .nil => .nil
  | .cons t ts => if p t then .cons t (TaskList.filter p ts) else TaskList.filter p ts

def TaskList.length : TaskList → Nat
  | .nil => 0
  | .cons _ ts => 1 + TaskList.length ts

def TaskList.toList : TaskList → List Task
  | .nil => []
  | .cons t ts => t :: TaskList.toList ts

/-- `Task.add_child`: appends to the end of `children`. -/
def Task.add_child : Task → Task → Task
  | .mk i ti c co ch ca d, child => .mk i ti c co (ch.snoc child) ca d

/-- Direct-children removal used by `Task.remove_child`: drop the first child
with the given id. -/
def TaskList.removeFirstById (i : String) : TaskList → TaskList
  | .nil => .nil
  | .cons t ts => if t.id = i then ts else .cons t (TaskList.removeFirstById i ts)

/-- Whether some direct child has the given id (`remove_child`'s return value). -/
def TaskList.containsId (i : String) : TaskList → Bool
  | .nil => false
  | .cons t ts => t.id = i || TaskList.containsId i ts

/-- `Task.remove_child` (mutation effect): removes the first direct child with
matching id; does not search grandchildren. -/
def Task.remove_child : Task → String → Task
  | .mk i ti c co ch ca d, cid => .mk i ti c co (ch.removeFirstById cid) ca d

mutual
/-- `Task.find_task`: depth-first search of self and all descendants. -/
def Task.find_task : Task → String → Option Task
  | t@(.mk i _ _ _ ch _ _), tid =>
    if i = tid then some t else TaskList.findInList ch tid
def TaskList.findInList : TaskList → String → Option Task
  | .nil, _ => none
  | .cons t ts, tid =>
    match Task.find_task t tid with
    | some r => some r
    | none => TaskList.findInList ts tid
end

mutual
/-- `Task.find_parent`: direct parent of the node with the given id, or none. -/
def Task.find_parent : Task → String → Option Task
  | t@(.mk _ _ _ _ ch _ _), tid => TaskList.findParentIn t ch tid
def TaskList.findParentIn (self : Task) : TaskList → String → Option Task
  | .nil, _ => none
  | .cons c rest, tid =>
    if c.id = tid then some self
    else
      match Task.find_parent c tid with
      | some r => some r
      | none => TaskList.findParentIn self rest tid
end

/-! Preorder node list of a subtree / forest: each entry pairs a node's id with
the whole subtree rooted there (the value an index alias of that node sees). -/

mutual
def Task.nodes : Task → List (String × Task)
  | t@(.mk i _ _ _ ch _ _) => (i, t) :: TaskList.nodesL ch
def TaskList.nodesL : TaskList → List (String × Task)
  | .nil => []
  | .cons t ts => Task.nodes t ++ TaskList.nodesL ts
end

def TaskList.idsL (ts : TaskList) : List String :=
  (TaskList.nodesL ts).map Prod.fst

def Task.ids (t : Task) : List String :=
  (Task.nodes t).map Prod.fst

/-! ### Persisted task records (`Task.to_dict` / `Task.from_dict`)

A record always carries `id` and `created_at` (see the module comment); the
remaining fields are optional with the defaults `Task.from_dict` applies. -/

mutual
inductive TaskDict where
  | mk (id : String) (title : Option String) (completed : Option Bool)
       (collapsed : Option Bool) (children : TaskDictChildren)
       (created_at : String) (description : Option String)
inductive TaskDictChildren where
  | absent
  | present (l : TaskDictList)
inductive TaskDictList where
  | nil
  | cons (head : TaskDict) (tail : TaskDictList)
end

/-- Python string slice `s[:n]` (a code-point prefix). -/
def pySlice (n : Nat) (s : String) : String :=
  ⟨s.data.take n⟩

mutual
def Task.to_dict : Task → TaskDict
  | .mk i ti c co ch ca d =>
    .mk i (some ti) (some c) (some co) (.present (TaskList.to_dictL ch)) ca (some d)
def TaskList.to_dictL : TaskList → TaskDictList
  | .nil => .nil
  | .cons t ts => .cons (Task.to_dict t) (TaskList.to_dictL ts)
end

mutual
/-- `Task.from_dict`: applies the `.get` defaults and clips `title` and
`description` to their length caps. -/
def Task.from_dict : TaskDict → Task
  | .mk i ti c co ch ca d =>
    .mk i (pySlice MAX_TITLE_LENGTH (ti.getD "")) (c.getD false) (co.getD false)
      (TaskDictChildren.from_dict ch) ca (pySlice MAX_DESCRIPTION_LENGTH (d.getD ""))
/-- `data.get('children', [])`, recursively deserialized. -/
def TaskDictChildren.from_dict : TaskDictChildren → TaskList
  | .absent => .nil
  | .present l => TaskDictList.from_dictL l
def TaskDictList.from_dictL : TaskDictList → TaskList
  | .nil => .nil
  | .cons t ts => .cons (Task.from_dict t) (TaskDictList.from_dictL ts)
end

def TaskDictList.isNil : TaskDictList → Bool
  | .nil => true
  | .cons _ _ => false

/-- The persisted shape of a whole store: basket key to list of task records. -/
abbrev DataDict := List (String × TaskDictList)

/-! ### TodoData (`models.py` class `TodoData`) -/

structure TodoData where
  baskets : List (String × TaskList)
  index : List (String × Task)

/-- `TodoData.__init__`, with the current week's date keys passed explicitly. -/
def TodoData.init (currentWeek : List String) : TodoData :=
  { baskets := ("Inbox", .nil) :: (currentWeek.map (fun d => (d, TaskList.nil)) ++ [("Later", .nil)]),
    index := [] }

/-- `_is_valid_basket`. -/
def TodoData.is_valid_basket (basket : String) : Bool :=
  FIXED_BASKETS.contains basket || is_date_basket basket

/-- `_ensure_basket_exists`. -/
def TodoData.ensure_basket_exists (s : TodoData) (basket : String) : TodoData :=
  if dictContains s.baskets basket then s
  else { s with baskets := s.baskets ++ [(basket, .nil)] }

/-- `find_task`: O(1) index lookup. -/
def TodoData.find_task (s : TodoData) (task_id : String) : Option Task :=
  dictGet s.index task_id

/-- Truthiness of an optional-string argument (`if parent_id:` in Python). -/
def truthy : Option String → Bool
  | none => false
  | some s => !(s == "")

mutual
/-- In-place mutation, through the index aliases, of the node with id `i`
(see the module comment): rewrite every occurrence of that id in `baskets`
and in the stored `index` values. -/
def Task.updT (i : String) (f : Task → Task) : Task → Task
  | t@(.mk tid ti c co ch ca d) =>
    if tid = i then f t else .mk tid ti c co (TaskList.updL i f ch) ca d
def TaskList.updL (i : String) (f : Task → Task) : TaskList → TaskList
  | .nil => .nil
  | .cons t ts => .cons (Task.updT i f t) (TaskList.updL i f ts)
end

def TodoData.mutate_at (s : TodoData) (i : String) (f : Task → Task) : TodoData :=
  { baskets := s.baskets.map (fun kv => (kv.1, TaskList.updL i f kv.2)),
    index := s.index.map (fun kv => (kv.1, Task.updT i f kv.2)) }

mutual
/-- `_index_task_recursive` / `_add_to_index`: insert a task and all its
children into the index, preorder. -/
def indexInsertTask (idx : List (String × Task)) : Task → List (String × Task)
  | t@(.mk i _ _ _ ch _ _) => indexInsertList (dictSet idx i t) ch
def indexInsertList (idx : List (String × Task)) : TaskList → List (String × Task)
  | .nil => idx
  | .cons t ts => indexInsertList (indexInsertTask idx t) ts
end

mutual
/-- `_remove_from_index`: pop a task's id and, recursively, its children's. -/
def indexRemoveTask (idx : List (String × Task)) : Task → List (String × Task)
  | .mk i _ _ _ ch _ _ => indexRemoveList (dictErase idx i) ch
def indexRemoveList (idx : List (String × Task)) : TaskList → List (String × Task)
  | .nil => idx
  | .cons t ts => indexRemoveList (indexRemoveTask idx t) ts
end

/-- `_rebuild_index`: clear the index and re-walk every basket. -/
def TodoData.rebuild_index (s : TodoData) : TodoData :=
  { s with index := s.baskets.foldl (fun idx kv => indexInsertList idx kv.2) [] }

/-- `add_task`. -/
def TodoData.add_task (s : TodoData) (basket : String) (task : Task)
    (parent_id : Option String) : Bool × TodoData :=
  if !TodoData.is_valid_basket basket then (false, s)
  else
    let s := s.ensure_basket_exists basket
    if truthy parent_id then
      let pid := parent_id.getD ""
      match s.find_task pid with
      | some _ =>
        let s := s.mutate_at pid (fun p => p.add_child task)
        (true, { s with index := indexInsertTask s.index task })
      | none => (false, s)
    else
      let roots := TaskList.snoc ((dictGet s.baskets basket).getD .nil) task
      let s := { s with baskets := dictSet s.baskets basket roots }
      (true, { s with index := indexInsertTask s.index task })

/-- `find_task_location`: inner loop over one basket's root tasks. -/
def locInBasket (name : String) : TaskList → String → Option (String × Option String)
  | .nil, _ => none
  | .cons t rest, tid =>
    if t.id = tid then some (name, none)
    else
      match t.find_parent tid with
      | some p => some (name, some p.id)
      | none => locInBasket name rest tid

/-- `find_task_location`. -/
def TodoData.find_task_location (s : TodoData) (task_id : String) :
    Option (String × Option String) :=
  let rec go : List (String × TaskList) → Option (String × Option String)
    | [] => none
    | (name, ts) :: rest =>
      match locInBasket name ts task_id with
      | some r => some r
      | none => go rest
  go s.baskets

/-- `move_task`. -/
def TodoData.move_task (s : TodoData) (task_id : String) (to_basket : String)
    (to_parent_id : Option String) : Bool × TodoData :=
  if !TodoData.is_valid_basket to_basket then (false, s)
  else
    let s := s.ensure_basket_exists to_basket
    match s.find_task_location task_id with
    | none => (false, s)
    | some (from_basket, from_parent_id) =>
      match s.find_task task_id with
      | none => (false, s)
      | some task =>
        let s :=
          if truthy from_parent_id then
            match s.find_task (from_parent_id.getD "") with
            | some _ => s.mutate_at (from_parent_id.getD "") (fun p => p.remove_child task_id)
            | none => s
          else
            let roots := TaskList.filter (fun t => !(t.id == task_id)) ((dictGet s.baskets from_basket).getD .nil)
            { s with baskets := dictSet s.baskets from_basket roots }
        if truthy to_parent_id then
          let pid := to_parent_id.getD ""
          match s.find_task pid with
          | some _ => (true, s.mutate_at pid (fun p => p.add_child task))
          | none => (false, s)
        else
          let roots := TaskList.snoc ((dictGet s.baskets to_basket).getD .nil) task
          (true, { s with baskets := dictSet s.baskets to_basket roots })

/-- `delete_task`. -/
def TodoData.delete_task (s : TodoData) (task_id : String) : Bool × TodoData :=
  match s.find_task task_id with
  | none => (false, s)
  | some task =>
    match s.find_task_location task_id with
    | none => (false, s)
    | some (basket_name, parent_id) =>
      let s := { s with index := indexRemoveTask s.index task }
      if truthy parent_id then
        match s.find_task (parent_id.getD "") with
        | some parent =>
          (TaskList.containsId task_id parent.children,
            s.mutate_at (parent_id.getD "") (fun p => p.remove_child task_id))
        | none => (false, s)
      else
        let roots := TaskList.filter (fun t => !(t.id == task_id)) ((dictGet s.baskets basket_name).getD .nil)
        (true, { s with baskets := dictSet s.baskets basket_name roots })

mutual
/-- `get_basket_count`'s inner recursion: a task that fails the filter is
skipped together with its whole subtree. -/
def countTask (include_completed : Bool) : Task → Nat
  | .mk _ _ comp _ ch _ _ =>
    if include_completed || !comp then 1 + countTasks include_completed ch else 0
def countTasks (include_completed : Bool) : TaskList → Nat
  | .nil => 0
  | .cons t ts => countTask include_completed t + countTasks include_completed ts
end

/-- `get_basket_count`. -/
def TodoData.get_basket_count (s : TodoData) (basket : String)
    (include_completed : Bool) : Nat :=
  match dictGet s.baskets basket with
  | none => 0
  | some ts => countTasks include_completed ts

/-- `TodoData.to_dict`. -/
def TodoData.to_dict (s : TodoData) : DataDict :=
  s.baskets.map (fun kv => (kv.1, TaskList.to_dictL kv.2))

/-- One legacy-weekday migration step of `TodoData.from_dict` (the body of
the loop over `LEGACY_DAY_BASKETS` with indices). -/
def migStep (data : DataDict) (currentWeek : List String) (td : TodoData)
    (p : Nat × String) : TodoData :=
  match dictGet data p.2 with
  | some day_tasks =>
    if !day_tasks.isNil then
      let date_key := currentWeek.getD p.1 ""
      let td := td.ensure_basket_exists date_key
      { td with baskets := dictSet td.baskets date_key (TaskDictList.from_dictL day_tasks) }
    else td
  | none => td

/-- One generic load step of `TodoData.from_dict` (the body of the loop over
`data.items()`). -/
def loadStep (td : TodoData) (kv : String × TaskDictList) : TodoData :=
  if FIXED_BASKETS.contains kv.1 then
    { td with baskets := dictSet td.baskets kv.1 (TaskDictList.from_dictL kv.2) }
  else if is_date_basket kv.1 then
    let td := td.ensure_basket_exists kv.1
    { td with baskets := dictSet td.baskets kv.1 (TaskDictList.from_dictL kv.2) }
  else td

/-- `TodoData.from_dict`, with the current week's date keys passed
explicitly (the source computes them from `datetime.now()`). -/
def TodoData.from_dict (currentWeek : List String) (data : DataDict)
    (migrate_legacy : Bool) : TodoData :=
  let todo_data := TodoData.init currentWeek
  let has_legacy := data.any (fun kv => LEGACY_DAY_BASKETS.contains kv.1)
  let todo_data :=
    if has_legacy && migrate_legacy then
      LEGACY_DAY_BASKETS.enum.foldl (migStep data currentWeek) todo_data
    else todo_data
  (data.foldl loadStep todo_data).rebuild_index

/-- Appending one moved task to `Inbox` (the body of the per-task loop in
`check_and_perform_week_transition`). -/
def inboxAppend (s : TodoData) (t : Task) : TodoData :=
  let s := s.ensure_basket_exists "Inbox"
  let roots := TaskList.snoc ((dictGet s.baskets "Inbox").getD .nil) t
  { s with baskets := dictSet s.baskets "Inbox" roots }

/-- The body of the per-stale-basket loop of
`check_and_perform_week_transition`. -/
def transStep (acc : Nat × TodoData) (basket_key : String) : Nat × TodoData :=
  let tasks := (dictGet acc.2.baskets basket_key).getD .nil
  let incomplete_tasks := tasks.filter (fun t => !t.completed)
  let completed_tasks := tasks.filter (fun t => t.completed)
  let s := (incomplete_tasks.toList).foldl inboxAppend acc.2
  let tasks_moved := acc.1 + incomplete_tasks.length
  let s :=
    if !completed_tasks.toList.isEmpty then
      { s with baskets := dictSet s.baskets basket_key completed_tasks }
    else
      { s with baskets := dictErase s.baskets basket_key }
  (tasks_moved, s)

/-- `check_and_perform_week_transition`, with the current week's date keys
passed explicitly.  Returns the number of tasks moved and the new store. -/
def TodoData.check_and_perform_week_transition (currentWeek : List String)
    (s : TodoData) : Nat × TodoData :=
  let old_week_baskets := (s.baskets.map Prod.fst).filter
      (fun k => is_date_basket k && !(currentWeek.contains k))
  old_week_baskets.foldl transStep (0, s)

/-! ### Basket calendar (`get_current_week_monday`) -/

/-- A Python `datetime` as far as `get_current_week_monday` observes it: a day
number (days since 1970-01-01, which was a Thursday) plus a time of day.
`timedelta(days=n)` subtraction shifts `days` keeping the time of day;
`.replace(hour=0, minute=0, second=0, microsecond=0)` zeroes the time;
`.weekday()` is 0 for Monday through 6 for Sunday. -/
structure PyDateTime where
  days : Int
  hour : Nat
  minute : Nat
  second : Nat
  microsecond : Nat

def PyDateTime.weekday (t : PyDateTime) : Int :=
  (t.days + 3) % 7

def PyDateTime.subDays (t : PyDateTime) (n : Int) : PyDateTime :=
  { t with days := t.days - n }

def PyDateTime.replaceMidnight (t : PyDateTime) : PyDateTime :=
  { t with hour := 0, minute := 0, second := 0, microsecond := 0 }

/-- `get_current_week_monday`, with `datetime.now()` passed explicitly. -/
def get_current_week_monday (now : PyDateTime) : PyDateTime :=
  if now.weekday = 0 ∧ now.hour < WEEK_TRANSITION_HOUR then
    (now.subDays 7).replaceMidnight
  else
    (now.subDays now.weekday).replaceMidnight

/-! ### Undo history (`app.py`, `TodoApp`) -/

def max_history : Nat := 50

/-- `TodoApp.save_to_history`: append a full-store snapshot; if the buffer then
exceeds `max_history`, drop the oldest entry (`history.pop(0)`). -/
def save_to_history (todo_data : TodoData) (history : List DataDict) : List DataDict :=
  let history := history ++ [todo_data.to_dict]
  if history.length > max_history then history.drop 1 else history

structure TodoApp where
  todo_data : TodoData
  history : List DataDict

/-- `TodoApp.action_undo`: if the history is nonempty, pop the most recent
snapshot and replace the live store wholesale with its deserialization. -/
def action_undo (currentWeek : List String) (app : TodoApp) : TodoApp :=
  match app.history.getLast? with
  | none => app
  | some last_state =>
    { todo_data := TodoData.from_dict currentWeek last_state true,
      history := app.history.dropLast }

/-! ### Spec-side definitions

These follow the specification's words, for comparison against the embedded
code; nothing below is used by the definitions above. -/

/-- Spec-side, from the claim: a key "exactly matches the 4-2-2 digit-group
dash-separated shape YYYY-MM-DD" (ASCII digits), and nothing else. -/
def specDateKeyShape (s : String) : Bool :=
  match s.data with
  | [y1, y2, y3, y4, s1, m1, m2, s2, d1, d2] =>
    y1.isDigit && y2.isDigit && y3.isDigit && y4.isDigit && s1 == '-' &&
    m1.isDigit && m2.isDigit && s2 == '-' && d1.isDigit && d2.isDigit
  | _ => false

/-- Spec-side, from the claim on `getBasketCount`: every task — including every
child of a completed task — evaluated independently against its own flag. -/
def independentCount : TaskList → Nat
  | .nil => 0
  | .cons (.mk _ _ c _ ch _ _) ts =>
    (if c then 0 else 1) + independentCount ch + independentCount ts

/-- Total number of nodes of a forest. -/
def sizeL : TaskList → Nat
  | .nil => 0
  | .cons (.mk _ _ _ _ ch _ _) ts => 1 + sizeL ch + sizeL ts

/-- Remove every completed task together with its entire subtree. -/
def pruneCompleted : TaskList → TaskList
  | .nil => .nil
  | .cons (.mk i ti c co ch ca d) ts =>
    if c then pruneCompleted ts
    else .cons (.mk i ti c co (pruneCompleted ch) ca d) (pruneCompleted ts)

/-- Parallel character-by-character matching of a whole token list, the
declarative counterpart of the operational `matchToks`. -/
def toksMatch : List RTok → List Char → Bool
  | [], [] => true
  | .digit :: toks, c :: cs => c.isDigit && toksMatch toks cs
  | .lit c' :: toks, c :: cs => (c == c') && toksMatch toks cs
  | _, _ => false

/-! ### Theorems -/

theorem list_take_of_length_le {α : Type} (l : List α) (n : Nat) (h : l.length ≤ n) :
    l.take n = l :=
  List.take_of_length_le h

/-- C8: for every current local time, the computed current-week Monday is that
time's date minus its weekday index, truncated to midnight — except on a
Monday with local hour strictly before 4, where it is the previous week's
Monday at midnight. -/
theorem c8_get_current_week_monday (now : PyDateTime) :
    (get_current_week_monday now).hour = 0 ∧
    (get_current_week_monday now).minute = 0 ∧
    (get_current_week_monday now).second = 0 ∧
    (get_current_week_monday now).microsecond = 0 ∧
    (get_current_week_monday now).weekday = 0 ∧
    (get_current_week_monday now).days =
      (if now.weekday = 0 ∧ now.hour < WEEK_TRANSITION_HOUR
       then now.days - 7 else now.days - now.weekday) := by
  unfold get_current_week_monday
  by_cases h : now.weekday = 0 ∧ now.hour < WEEK_TRANSITION_HOUR
  · rw [if_pos h, if_pos h]
    have h1 : (now.days + 3) % 7 = 0 := h.1
    refine ⟨rfl, rfl, rfl, rfl, ?_, rfl⟩
    show (now.days - 7 + 3) % 7 = 0
    omega
  · rw [if_neg h, if_neg h]
    refine ⟨rfl, rfl, rfl, rfl, ?_, rfl⟩
    show (now.days - (now.days + 3) % 7 + 3) % 7 = 0
    omega

theorem toksMatch_nil_iff (pre : List Char) : toksMatch [] pre = true ↔ pre = [] := by
  cases pre with
  | nil => simp [toksMatch]
  | cons a l => simp [toksMatch]

theorem matchToks_some_iff (toks : List RTok) : ∀ (cs rest : List Char),
    matchToks toks cs = some rest ↔ ∃ pre, cs = pre ++ rest ∧ toksMatch toks pre = true := by
  induction toks with
  | nil =>
    intro cs rest
    simp only [matchToks, Option.some.injEq]
    constructor
    · intro h
      exact ⟨[], by simp [h], rfl⟩
    · rintro ⟨pre, hcs, hm⟩
      rw [(toksMatch_nil_iff pre).mp hm] at hcs
      simpa using hcs
  | cons t toks ih =>
    intro cs rest
    cases cs with
    | nil =>
      cases t <;>
        · simp only [matchToks]
          constructor
          · intro h
            exact absurd h (by simp)
          · rintro ⟨pre, hcs, hm⟩
            cases pre with
            | nil => simp [toksMatch] at hm
            | cons p l => simp at hcs
    | cons c cs' =>
      cases t with
      | digit =>
        simp only [matchToks]
        by_cases hd : c.isDigit
        · rw [if_pos hd, ih cs' rest]
          constructor
          · rintro ⟨pre, hcs, hm⟩
            exact ⟨c :: pre, by simp [hcs], by simp [toksMatch, hd, hm]⟩
          · rintro ⟨pre, hcs, hm⟩
            cases pre with
            | nil => simp [toksMatch] at hm
            | cons p pre' =>
              simp only [List.cons_append, List.cons.injEq] at hcs
              obtain ⟨h1, h2⟩ := hcs
              subst h1
              simp only [toksMatch, Bool.and_eq_true] at hm
              exact ⟨pre', h2, hm.2⟩
        · rw [if_neg hd]
          constructor
          · intro h
            exact absurd h (by simp)
          · rintro ⟨pre, hcs, hm⟩
            cases pre with
            | nil => simp [toksMatch] at hm
            | cons p pre' =>
              simp only [List.cons_append, List.cons.injEq] at hcs
              obtain ⟨h1, _⟩ := hcs
              subst h1
              simp only [toksMatch, Bool.and_eq_true] at hm
              exact absurd hm.1 hd
      | lit c' =>
        simp only [matchToks]
        by_cases hd : (c == c') = true
        · rw [if_pos hd, ih cs' rest]
          constructor
          · rintro ⟨pre, hcs, hm⟩
            exact ⟨c :: pre, by simp [hcs], by simp [toksMatch, hd, hm]⟩
          · rintro ⟨pre, hcs, hm⟩
            cases pre with
            | nil => simp [toksMatch] at hm
            | cons p pre' =>
              simp only [List.cons_append, List.cons.injEq] at hcs
              obtain ⟨h1, h2⟩ := hcs
              subst h1
              simp only [toksMatch, Bool.and_eq_true] at hm
              exact ⟨pre', h2, hm.2⟩
        · rw [if_neg (by simpa using hd)]
          constructor
          · intro h
            exact absurd h (by simp)
          · rintro ⟨pre, hcs, hm⟩
            cases pre with
            | nil => simp [toksMatch] at hm
            | cons p pre' =>
              simp only [List.cons_append, List.cons.injEq] at hcs
              obtain ⟨h1, _⟩ := hcs
              subst h1
              simp only [toksMatch, Bool.and_eq_true] at hm
              exact absurd hm.1 hd

theorem toksMatch_datePattern (pre : List Char) :
    toksMatch datePattern pre = specDateKeyShape ⟨pre⟩ := by
  rcases pre with _|⟨c0,_|⟨c1,_|⟨c2,_|⟨c3,_|⟨c4,_|⟨c5,_|⟨c6,_|⟨c7,_|⟨c8,_|⟨c9,_|⟨c10,rest⟩⟩⟩⟩⟩⟩⟩⟩⟩⟩⟩ <;>
    simp [datePattern, toksMatch, specDateKeyShape, Bool.and_assoc]

theorem dollarEnd_iff (cs : List Char) : dollarEnd cs = true ↔ cs = [] ∨ cs = ['\n'] := by
  rcases cs with _|⟨c,_|⟨d,l⟩⟩ <;> simp [dollarEnd]

theorem is_date_basket_iff (s : String) :
    is_date_basket s = true ↔
      specDateKeyShape s = true ∨
        ∃ pre, s.data = pre ++ ['\n'] ∧ specDateKeyShape ⟨pre⟩ = true := by
  unfold is_date_basket
  cases hm : matchToks datePattern s.data with
  | none =>
    constructor
    · intro h
      exact absurd h (by simp)
    · rintro (h | ⟨pre, hcs, h⟩)
      · rw [show specDateKeyShape s = specDateKeyShape ⟨s.data⟩ from rfl,
          ← toksMatch_datePattern] at h
        have : matchToks datePattern s.data = some [] :=
          (matchToks_some_iff _ _ _).mpr ⟨s.data, by simp, h⟩
        rw [hm] at this
        exact absurd this (by simp)
      · rw [← toksMatch_datePattern] at h
        have : matchToks datePattern s.data = some ['\n'] :=
          (matchToks_some_iff _ _ _).mpr ⟨pre, hcs, h⟩
        rw [hm] at this
        exact absurd this (by simp)
  | some rest =>
    obtain ⟨pre, hcs, hpre⟩ := (matchToks_some_iff _ _ _).mp hm
    rw [dollarEnd_iff]
    constructor
    · rintro (h | h)
      · subst h
        left
        rw [show specDateKeyShape s = specDateKeyShape ⟨s.data⟩ from rfl]
        have : s.data = pre := by simpa using hcs
        rw [this, ← toksMatch_datePattern]
        exact hpre
      · subst h
        right
        exact ⟨pre, hcs, by rw [← toksMatch_datePattern]; exact hpre⟩
    · rintro (h | ⟨pre', hcs', h⟩)
      · rw [show specDateKeyShape s = specDateKeyShape ⟨s.data⟩ from rfl,
          ← toksMatch_datePattern] at h
        have : matchToks datePattern s.data = some [] :=
          (matchToks_some_iff _ _ _).mpr ⟨s.data, by simp, h⟩
        rw [hm] at this
        simp only [Option.some.injEq] at this
        exact Or.inl this
      · rw [← toksMatch_datePattern] at h
        have : matchToks datePattern s.data = some ['\n'] :=
          (matchToks_some_iff _ _ _).mpr ⟨pre', hcs', h⟩
        rw [hm] at this
        simp only [Option.some.injEq] at this
        exact Or.inr this

/-- C7 (amended): the basket-validity check used by `add_task` and `move_task`
accepts a key iff it is exactly "Inbox", exactly "Later", a 4-2-2
digit-group dash-separated shape (with no calendar validity check), or — in
addition to what the claim states — such a shape followed by a single
trailing newline, which Python's `$` anchor also accepts. -/
theorem c7_basket_validity (s : String) :
    TodoData.is_valid_basket s = true ↔
      s = "Inbox" ∨ s = "Later" ∨ specDateKeyShape s = true ∨
        ∃ pre, s.data = pre ++ ['\n'] ∧ specDateKeyShape ⟨pre⟩ = true := by
  unfold TodoData.is_valid_basket
  have hfix : (FIXED_BASKETS.contains s = true) ↔ s = "Inbox" ∨ s = "Later" := by
    simp [FIXED_BASKETS]
  rw [Bool.or_eq_true, hfix, is_date_basket_iff]
  tauto

/-- C7 counterexample: the claim says no strings beyond "Inbox", "Later" and
the exact 4-2-2 shape are accepted, but the check also accepts
"2024-01-01\n" (Python's `$` matches before a final newline); meanwhile the
claimed absence of a calendar check is real: "2024-13-40" is accepted. -/
theorem c7_counterexample :
    TodoData.is_valid_basket "2024-01-01\n" = true ∧
    specDateKeyShape "2024-01-01\n" = false ∧
    ("2024-01-01\n" = "Inbox" → False) ∧
    ("2024-01-01\n" = "Later" → False) ∧
    TodoData.is_valid_basket "2024-13-40" = true := by
  refine ⟨by decide, by decide, by decide, by decide, by decide⟩

/-- C9: the undo history never holds more than 50 snapshots — pushing a
snapshot when the buffer is full drops the oldest entry (FIFO eviction),
pushing below capacity appends — and undo pops the most recently pushed
snapshot and replaces the live store wholesale with its deserialization. -/
theorem c9_undo_history (d : TodoData) (h : List DataDict) (cw : List String)
    (app : TodoApp) (hlen : h.length ≤ max_history) (hne : app.history ≠ []) :
    (save_to_history d h).length ≤ max_history ∧
    (h.length = max_history → save_to_history d h = h.drop 1 ++ [d.to_dict]) ∧
    (h.length < max_history → save_to_history d h = h ++ [d.to_dict]) ∧
    (∃ last, app.history.getLast? = some last ∧
      action_undo cw app = { todo_data := TodoData.from_dict cw last true,
                             history := app.history.dropLast }) := by
  refine ⟨?_, ?_, ?_, ?_⟩
  · unfold save_to_history
    by_cases hc : (h ++ [d.to_dict]).length > max_history
    · rw [if_pos hc]
      simp only [List.length_drop, List.length_append, List.length_singleton]
      omega
    · rw [if_neg hc]
      exact not_lt.mp hc
  · intro hfull
    unfold save_to_history
    rw [if_pos (by simp [hfull, max_history])]
    have h1 : 1 ≤ h.length := by
      rw [hfull]
      decide
    rw [List.drop_append_of_le_length h1]
  · intro hlt
    unfold save_to_history
    rw [if_neg (by simp; omega)]
  · cases hl : app.history.getLast? with
    | none =>
      rw [List.getLast?_eq_none_iff] at hl
      exact absurd hl hne
    | some last =>
      refine ⟨last, rfl, ?_⟩
      unfold action_undo
      rw [hl]

def sampleSnap : DataDict := [("Inbox", .nil)]

def sampleApp : TodoApp := { todo_data := ⟨[], []⟩, history := [sampleSnap] }

theorem c9_undo_history_witness :
    ([] : List DataDict).length ≤ max_history ∧ sampleApp.history ≠ [] ∧
    ((save_to_history ⟨[], []⟩ []).length ≤ max_history ∧
     (([] : List DataDict).length = max_history →
        save_to_history ⟨[], []⟩ [] = ([] : List DataDict).drop 1 ++ [TodoData.to_dict ⟨[], []⟩]) ∧
     (([] : List DataDict).length < max_history →
        save_to_history ⟨[], []⟩ [] = [] ++ [TodoData.to_dict ⟨[], []⟩]) ∧
     (∃ last, sampleApp.history.getLast? = some last ∧
        action_undo [] sampleApp = { todo_data := TodoData.from_dict [] last true,
                                     history := sampleApp.history.dropLast })) :=
  ⟨by decide, by simp [sampleApp], c9_undo_history ⟨[], []⟩ [] [] sampleApp (by decide)
    (by simp [sampleApp])⟩

theorem countTasks_true_eq (ts : TaskList) : countTasks true ts = sizeL ts := by
  match ts with
  | .nil => rfl
  | .cons (.mk i ti c co ch ca d) rest =>
    have h1 := countTasks_true_eq ch
    have h2 := countTasks_true_eq rest
    simp [countTasks, countTask, sizeL, h1, h2]

theorem countTasks_false_eq (ts : TaskList) :
    countTasks false ts = sizeL (pruneCompleted ts) := by
  match ts with
  | .nil => rfl
  | .cons (.mk i ti c co ch ca d) rest =>
    have h1 := countTasks_false_eq ch
    have h2 := countTasks_false_eq rest
    cases c with
    | true => simp [countTasks, countTask, pruneCompleted, sizeL, h2]
    | false =>
      simp [countTasks, countTask, pruneCompleted, sizeL, h1, h2]

/-- C6 (amended): `get_basket_count` with `include_completed = true` counts
every task in the basket's subtree; with the default `false` it counts
exactly the tasks reachable without passing through any completed task — a
completed task's flag excludes its entire subtree, so children of a completed
task are never evaluated independently.  An unrecognized or absent basket key
yields 0 (the `dictGet` of such a key is `none`, so the counted forest is
empty). -/
theorem c6_get_basket_count (s : TodoData) (basket : String) :
    s.get_basket_count basket true = sizeL ((dictGet s.baskets basket).getD .nil) ∧
    s.get_basket_count basket false =
      sizeL (pruneCompleted ((dictGet s.baskets basket).getD .nil)) := by
  unfold TodoData.get_basket_count
  cases h : dictGet s.baskets basket with
  | none => simp [sizeL, pruneCompleted]
  | some ts => simp [countTasks_true_eq, countTasks_false_eq]

def completedParent : Task :=
  .mk "p" "parent" true false (.cons (.mk "c" "child" false false .nil "" "") .nil) "" ""

def storeWithCompletedParent : TodoData :=
  ⟨[("Inbox", .cons completedParent .nil)], []⟩

/-- C6 counterexample: on a basket holding one completed parent with one
incomplete child, the claim's independent evaluation predicts a count of 1
(the child, judged against its own flag), but `get_basket_count` with the
default `include_completed = false` returns 0: the completed parent's flag
suppresses its whole subtree. -/
theorem c6_counterexample :
    storeWithCompletedParent.get_basket_count "Inbox" false = 0 ∧
    independentCount ((dictGet storeWithCompletedParent.baskets "Inbox").getD .nil) = 1 :=
  ⟨rfl, rfl⟩

/-! ### Association-list lemmas -/

theorem dictGet_set_self {α : Type} (l : List (String × α)) (k : String) (v : α) :
    dictGet (dictSet l k v) k = some v := by
  induction l with
  | nil => simp [dictSet, dictGet]
  | cons kv rest ih =>
    obtain ⟨k', v'⟩ := kv
    by_cases h : k' = k
    · subst h
      simp [dictSet, dictGet]
    · simp [dictSet, dictGet, h, ih]

theorem dictGet_set_ne {α : Type} (l : List (String × α)) (k k' : String) (v : α)
    (h : k' ≠ k) : dictGet (dictSet l k v) k' = dictGet l k' := by
  induction l with
  | nil =>
    simp only [dictSet, dictGet]
    rw [if_neg (fun hh : k = k' => h hh.symm)]
  | cons kv rest ih =>
    obtain ⟨a, b⟩ := kv
    by_cases ha : a = k
    · subst ha
      simp only [dictSet, if_pos rfl, dictGet]
      rw [if_neg (fun hh : a = k' => h hh.symm), if_neg (fun hh : a = k' => h hh.symm)]
    · simp only [dictSet, if_neg ha, dictGet]
      rw [ih]

theorem dictGet_eq_none_iff {α : Type} (l : List (String × α)) (k : String) :
    dictGet l k = none ↔ k ∉ dictKeys l := by
  induction l with
  | nil => simp [dictGet, dictKeys]
  | cons kv rest ih =>
    obtain ⟨a, b⟩ := kv
    by_cases ha : a = k
    · subst ha
      simp [dictGet, dictKeys]
    · simp only [dictGet, if_neg ha, dictKeys, List.map_cons, List.mem_cons, not_or]
      rw [ih]
      exact ⟨fun hn => ⟨fun hk => ha hk.symm, hn⟩, fun hp => hp.2⟩

theorem dictGet_isSome_iff {α : Type} (l : List (String × α)) (k : String) :
    (dictGet l k).isSome = true ↔ k ∈ dictKeys l := by
  rcases hg : dictGet l k with _ | v
  · have hk := (dictGet_eq_none_iff l k).mp hg
    simp [hk]
  · have : ¬ dictGet l k = none := by simp [hg]
    have hk := not_not.mp ((not_congr (dictGet_eq_none_iff l k)).mp this)
    simp [hk]

theorem dictGet_erase_ne {α : Type} (l : List (String × α)) (k k' : String)
    (h : k' ≠ k) : dictGet (dictErase l k) k' = dictGet l k' := by
  induction l with
  | nil => simp [dictErase]
  | cons kv rest ih =>
    obtain ⟨a, b⟩ := kv
    by_cases ha : a = k
    · subst ha
      have he : dictErase ((a, b) :: rest) a = rest := by simp [dictErase]
      rw [he]
      simp only [dictGet]
      rw [if_neg (fun hh : a = k' => h hh.symm)]
    · simp only [dictErase, if_neg ha, dictGet]
      rw [ih]

theorem dictGet_erase_self {α : Type} (l : List (String × α)) (k : String)
    (h : (dictKeys l).Nodup) : dictGet (dictErase l k) k = none := by
  induction l with
  | nil => simp [dictErase, dictGet]
  | cons kv rest ih =>
    obtain ⟨a, b⟩ := kv
    simp only [dictKeys, List.map_cons, List.nodup_cons] at h
    by_cases ha : a = k
    · subst ha
      simp only [dictErase, if_pos rfl]
      rw [dictGet_eq_none_iff]
      exact h.1
    · simp only [dictErase, if_neg ha, dictGet, if_neg ha]
      exact ih h.2

theorem dictKeys_set_of_mem {α : Type} (l : List (String × α)) (k : String) (v : α)
    (h : k ∈ dictKeys l) : dictKeys (dictSet l k v) = dictKeys l := by
  induction l with
  | nil => simp [dictKeys] at h
  | cons kv rest ih =>
    obtain ⟨a, b⟩ := kv
    by_cases ha : a = k
    · subst ha
      simp [dictSet, dictKeys]
    · have hk : k ∈ dictKeys rest := by
        simp only [dictKeys, List.map_cons, List.mem_cons] at h
        rcases h with h | h
        · exact absurd h.symm ha
        · exact h
      have ih2 := ih hk
      simp only [dictKeys] at ih2 ⊢
      simp [dictSet, ha, ih2]

theorem dictKeys_erase_sublist {α : Type} (l : List (String × α)) (k : String) :
    (dictKeys (dictErase l k)).Sublist (dictKeys l) := by
  induction l with
  | nil => simp [dictErase]
  | cons kv rest ih =>
    obtain ⟨a, b⟩ := kv
    by_cases ha : a = k
    · subst ha
      simp only [dictErase, if_pos rfl, dictKeys, List.map_cons]
      exact List.sublist_cons_self _ _
    · simp only [dictErase, if_neg ha, dictKeys, List.map_cons]
      exact ih.cons₂ a

theorem nodup_keys_erase {α : Type} (l : List (String × α)) (k : String)
    (h : (dictKeys l).Nodup) : (dictKeys (dictErase l k)).Nodup :=
  h.sublist (dictKeys_erase_sublist l k)

/-! ### TaskList append lemmas -/

def TaskList.append : TaskList → TaskList → TaskList
  | .nil, ys => ys
  | .cons t ts, ys => .cons t (TaskList.append ts ys)

def TaskList.ofList : List Task → TaskList
  | [] => .nil
  | t :: ts => .cons t (TaskList.ofList ts)

theorem TaskList.ofList_toList (ts : TaskList) : TaskList.ofList ts.toList = ts := by
  match ts with
  | .nil => rfl
  | .cons t ts' => simp [TaskList.toList, TaskList.ofList, TaskList.ofList_toList ts']

theorem TaskList.append_nil (ts : TaskList) : ts.append .nil = ts := by
  match ts with
  | .nil => rfl
  | .cons t ts' => simp [TaskList.append, TaskList.append_nil ts']

theorem TaskList.append_assoc (a b c : TaskList) :
    (a.append b).append c = a.append (b.append c) := by
  match a with
  | .nil => rfl
  | .cons t ts' => simp [TaskList.append, TaskList.append_assoc ts']

theorem TaskList.snoc_eq_append (ts : TaskList) (t : Task) :
    ts.snoc t = ts.append (.cons t .nil) := by
  match ts with
  | .nil => rfl
  | .cons u us => simp [TaskList.snoc, TaskList.append, TaskList.snoc_eq_append us]

theorem TaskList.length_append (a b : TaskList) :
    (a.append b).length = a.length + b.length := by
  match a with
  | .nil => simp [TaskList.append, TaskList.length]
  | .cons t ts' =>
    simp [TaskList.append, TaskList.length, TaskList.length_append ts']
    omega

theorem TaskList.not_isEmpty_toList (ts : TaskList) (h : ts ≠ .nil) :
    (!ts.toList.isEmpty) = true := by
  match ts with
  | .nil => exact absurd rfl h
  | .cons a b => simp [TaskList.toList]

theorem ensure_of_contains (s : TodoData) (b : String)
    (h : dictContains s.baskets b = true) : s.ensure_basket_exists b = s := by
  simp [TodoData.ensure_basket_exists, h]

/-! ### C3: week transition -/

/-- The tasks the rollover moves: for each stale key in order, that basket's
incomplete root tasks in order. -/
def staleMoved (s : TodoData) (keys : List String) : TaskList :=
  keys.foldr (fun k acc =>
    TaskList.append (((dictGet s.baskets k).getD .nil).filter (fun t => !t.completed)) acc) .nil

theorem foldl_inboxAppend (l : List Task) : ∀ (s : TodoData) (inb : TaskList),
    dictGet s.baskets "Inbox" = some inb →
    dictGet (l.foldl inboxAppend s).baskets "Inbox" = some (inb.append (TaskList.ofList l)) ∧
    (∀ k, k ≠ "Inbox" → dictGet (l.foldl inboxAppend s).baskets k = dictGet s.baskets k) ∧
    (l.foldl inboxAppend s).index = s.index ∧
    dictKeys (l.foldl inboxAppend s).baskets = dictKeys s.baskets := by
  induction l with
  | nil =>
    intro s inb h
    simp [TaskList.append_nil, TaskList.ofList, h]
  | cons t l ih =>
    intro s inb h
    have hcont : dictContains s.baskets "Inbox" = true := by
      simp [dictContains, h]
    have hstep : inboxAppend s t =
        { s with baskets := dictSet s.baskets "Inbox" (inb.snoc t) } := by
      unfold inboxAppend
      rw [ensure_of_contains s "Inbox" hcont]
      simp only [h, Option.getD_some]
    have hmem : "Inbox" ∈ dictKeys s.baskets := by
      rw [← dictGet_isSome_iff]
      simp [h]
    have hget : dictGet (inboxAppend s t).baskets "Inbox" = some (inb.snoc t) := by
      rw [hstep]
      exact dictGet_set_self _ _ _
    obtain ⟨h1, h2, h3, h4⟩ := ih (inboxAppend s t) (inb.snoc t) hget
    refine ⟨?_, ?_, ?_, ?_⟩
    · rw [List.foldl_cons, h1, TaskList.snoc_eq_append, TaskList.append_assoc]
      rfl
    · intro k hk
      rw [List.foldl_cons, h2 k hk, hstep]
      exact dictGet_set_ne _ _ _ _ hk
    · rw [List.foldl_cons, h3, hstep]
    · rw [List.foldl_cons, h4, hstep]
      exact dictKeys_set_of_mem _ _ _ hmem

theorem foldl_transStep (orig : TodoData) : ∀ (rem : List String) (n : Nat)
    (s : TodoData) (inb : TaskList),
    rem.Nodup → "Inbox" ∉ rem → (dictKeys s.baskets).Nodup →
    (∀ k ∈ rem, dictGet s.baskets k = dictGet orig.baskets k) →
    dictGet s.baskets "Inbox" = some inb →
    (rem.foldl transStep (n, s)).1 = n + TaskList.length (staleMoved orig rem) ∧
    dictGet (rem.foldl transStep (n, s)).2.baskets "Inbox" =
      some (inb.append (staleMoved orig rem)) ∧
    (∀ k ∈ rem,
      (((dictGet orig.baskets k).getD .nil).filter (fun t => t.completed) ≠ .nil →
        dictGet (rem.foldl transStep (n, s)).2.baskets k =
          some (((dictGet orig.baskets k).getD .nil).filter (fun t => t.completed))) ∧
      (((dictGet orig.baskets k).getD .nil).filter (fun t => t.completed) = .nil →
        dictGet (rem.foldl transStep (n, s)).2.baskets k = none)) ∧
    (∀ k, k ∉ rem → k ≠ "Inbox" →
      dictGet (rem.foldl transStep (n, s)).2.baskets k = dictGet s.baskets k) ∧
    (rem.foldl transStep (n, s)).2.index = s.index := by
  intro rem
  induction rem with
  | nil =>
    intro n s inb _ _ _ _ hinb
    simp [staleMoved, TaskList.length, TaskList.append_nil, hinb]
  | cons k0 rest ih =>
    intro n s inb hnd hninbox hkeys hsame hinb
    have hk0ne : k0 ≠ "Inbox" := fun h => hninbox (h ▸ List.mem_cons_self k0 rest)
    have hT : (dictGet s.baskets k0).getD .nil = (dictGet orig.baskets k0).getD .nil := by
      rw [hsame k0 (List.mem_cons_self k0 rest)]
    set T := (dictGet orig.baskets k0).getD .nil with hTdef
    set inc := T.filter (fun t => !t.completed) with hincdef
    set comp := T.filter (fun t => t.completed) with hcompdef
    -- the store after the per-task Inbox loop
    obtain ⟨hI1, hI2, hI3, hI4⟩ := foldl_inboxAppend inc.toList s inb hinb
    set s1 := inc.toList.foldl inboxAppend s with hs1def
    -- the store after archiving or deleting the stale key
    have hstep : transStep (n, s) k0 =
        (n + inc.length,
          if !comp.toList.isEmpty then
            { s1 with baskets := dictSet s1.baskets k0 comp }
          else
            { s1 with baskets := dictErase s1.baskets k0 }) := by
      simp only [transStep]
      rw [hT]
    set s2 := (transStep (n, s) k0).2 with hs2def
    have hkeys1 : (dictKeys s1.baskets).Nodup := by rw [hI4]; exact hkeys
    have hkeys2 : (dictKeys s2.baskets).Nodup := by
      rw [hs2def, hstep]
      by_cases hc : !comp.toList.isEmpty
      · simp only [if_pos hc]
        have hmem : k0 ∈ dictKeys s1.baskets := by
          rw [← dictGet_isSome_iff, hI2 k0 hk0ne]
          rcases hget : dictGet s.baskets k0 with _ | v
          · exfalso
            have hTnil : T = .nil := by
              rw [hTdef, ← hsame k0 (List.mem_cons_self k0 rest), hget]
              rfl
            rw [hcompdef, hTnil] at hc
            simp [TaskList.filter, TaskList.toList] at hc
          · rfl
        rw [dictKeys_set_of_mem _ _ _ hmem]
        exact hkeys1
      · simp only [if_neg hc]
        exact nodup_keys_erase _ _ hkeys1
    have hg2 : ∀ k, k ≠ k0 → k ≠ "Inbox" → dictGet s2.baskets k = dictGet s.baskets k := by
      intro k hk hkI
      rw [hs2def, hstep]
      by_cases hc : !comp.toList.isEmpty
      · simp only [if_pos hc]
        rw [dictGet_set_ne _ _ _ _ hk]
        exact hI2 k hkI
      · simp only [if_neg hc]
        rw [dictGet_erase_ne _ _ _ hk]
        exact hI2 k hkI
    have hg2I : dictGet s2.baskets "Inbox" = some (inb.append inc) := by
      rw [hs2def, hstep]
      by_cases hc : !comp.toList.isEmpty
      · simp only [if_pos hc]
        rw [dictGet_set_ne _ _ _ _ (fun h => hk0ne h.symm), hI1, TaskList.ofList_toList]
      · simp only [if_neg hc]
        rw [dictGet_erase_ne _ _ _ (fun h => hk0ne h.symm), hI1, TaskList.ofList_toList]
    have hg2k0 : (comp ≠ .nil → dictGet s2.baskets k0 = some comp) ∧
        (comp = .nil → dictGet s2.baskets k0 = none) := by
      constructor
      · intro hcne
        have hc := TaskList.not_isEmpty_toList comp hcne
        rw [hs2def, hstep]
        simp only [if_pos hc]
        exact dictGet_set_self _ _ _
      · intro hcnil
        have hc : ¬((!comp.toList.isEmpty) = true) := by
          rw [hcnil]
          simp [TaskList.toList]
        rw [hs2def, hstep]
        rw [if_neg hc]
        exact dictGet_erase_self _ _ hkeys1
    have hsame2 : ∀ k ∈ rest, dictGet s2.baskets k = dictGet orig.baskets k := by
      intro k hk
      have hkne : k ≠ k0 := fun h => (List.nodup_cons.mp hnd).1 (h ▸ hk)
      have hkI : k ≠ "Inbox" := fun h => hninbox (h ▸ List.mem_cons_of_mem k0 hk)
      rw [hg2 k hkne hkI]
      exact hsame k (List.mem_cons_of_mem k0 hk)
    have hfold : (k0 :: rest).foldl transStep (n, s) =
        rest.foldl transStep (n + inc.length, s2) := by
      rw [List.foldl_cons, hs2def, hstep]
    obtain ⟨hR1, hR2, hR3, hR4, hR5⟩ :=
      ih (n + inc.length) s2 (inb.append inc) (List.nodup_cons.mp hnd).2
        (fun h => hninbox (List.mem_cons_of_mem k0 h)) hkeys2 hsame2 hg2I
    have hmovedcons : staleMoved orig (k0 :: rest) = inc.append (staleMoved orig rest) := rfl
    refine ⟨?_, ?_, ?_, ?_, ?_⟩
    · rw [hfold, hR1, hmovedcons, TaskList.length_append]
      omega
    · rw [hfold, hR2, hmovedcons, TaskList.append_assoc]
    · intro k hk
      rcases List.mem_cons.mp hk with hk | hk
      · subst hk
        have hknr : k ∉ rest := (List.nodup_cons.mp hnd).1
        constructor
        · intro hcne
          rw [hfold, hR4 k hknr hk0ne]
          exact hg2k0.1 hcne
        · intro hcnil
          rw [hfold, hR4 k hknr hk0ne]
          exact hg2k0.2 hcnil
      · rw [hfold]
        exact hR3 k hk
    · intro k hk hkI
      have hknr : k ∉ rest := fun h => hk (List.mem_cons_of_mem k0 h)
      have hkne : k ≠ k0 := fun h => hk (h ▸ List.mem_cons_self k0 rest)
      rw [hfold, hR4 k hknr hkI]
      exact hg2 k hkne hkI
    · rw [hfold, hR5, hs2def, hstep]
      by_cases hc : !comp.toList.isEmpty
      · simp only [if_pos hc]
        exact hI3
      · simp only [if_neg hc]
        exact hI3

/-- The stale keys the rollover operates on: date-formatted basket keys not in
the current week. -/
def staleKeys (cw : List String) (s : TodoData) : List String :=
  (dictKeys s.baskets).filter (fun k => is_date_basket k && !(cw.contains k))

/-- C3: `check_and_perform_week_transition` appends each incomplete root task
of every stale date basket (in basket order) to Inbox and returns the number
of tasks so moved; each stale basket afterwards holds exactly its completed
root tasks, or is deleted when it has none; every other basket is untouched;
and when no basket is stale the call moves zero tasks and leaves the store
unchanged. -/
theorem c3_week_transition (cw : List String) (s : TodoData)
    (hnodup : (dictKeys s.baskets).Nodup)
    (hinbox : dictContains s.baskets "Inbox" = true) :
    (TodoData.check_and_perform_week_transition cw s).1 =
      TaskList.length (staleMoved s (staleKeys cw s)) ∧
    dictGet (TodoData.check_and_perform_week_transition cw s).2.baskets "Inbox" =
      some (TaskList.append ((dictGet s.baskets "Inbox").getD .nil)
        (staleMoved s (staleKeys cw s))) ∧
    (∀ k ∈ staleKeys cw s,
      (((dictGet s.baskets k).getD .nil).filter (fun t => t.completed) ≠ .nil →
        dictGet (TodoData.check_and_perform_week_transition cw s).2.baskets k =
          some (((dictGet s.baskets k).getD .nil).filter (fun t => t.completed))) ∧
      (((dictGet s.baskets k).getD .nil).filter (fun t => t.completed) = .nil →
        dictGet (TodoData.check_and_perform_week_transition cw s).2.baskets k = none)) ∧
    (∀ k, k ∉ staleKeys cw s → k ≠ "Inbox" →
      dictGet (TodoData.check_and_perform_week_transition cw s).2.baskets k =
        dictGet s.baskets k) ∧
    (staleKeys cw s = [] → TodoData.check_and_perform_week_transition cw s = (0, s)) := by
  have hC : TodoData.check_and_perform_week_transition cw s =
      (staleKeys cw s).foldl transStep (0, s) := rfl
  have hstaleN : (staleKeys cw s).Nodup := hnodup.filter _
  have hstaleI : "Inbox" ∉ staleKeys cw s := by
    intro hmem
    have hp := List.of_mem_filter hmem
    have hd : is_date_basket "Inbox" = false := by decide
    rw [hd] at hp
    simp at hp
  obtain ⟨inb, hinb⟩ := Option.isSome_iff_exists.mp hinbox
  obtain ⟨H1, H2, H3, H4, H5⟩ :=
    foldl_transStep s (staleKeys cw s) 0 s inb hstaleN hstaleI hnodup (fun k _ => rfl) hinb
  rw [hC]
  refine ⟨?_, ?_, H3, H4, ?_⟩
  · rw [H1]
    exact Nat.zero_add _
  · rw [hinb]
    exact H2
  · intro h
    rw [h]
    rfl

def c3SampleIncomplete : Task := .mk "a" "old task" false false .nil "" ""

def c3SampleDone : Task := .mk "b" "done task" true false .nil "" ""

def c3Store : TodoData :=
  ⟨[("Inbox", .nil),
    ("2020-01-01", .cons c3SampleIncomplete (.cons c3SampleDone .nil)),
    ("Later", .nil)], []⟩

theorem c3_week_transition_witness :
    (dictKeys c3Store.baskets).Nodup ∧
    dictContains c3Store.baskets "Inbox" = true ∧
    (TodoData.check_and_perform_week_transition [] c3Store).1 = 1 :=
  ⟨by decide, by decide,
    (c3_week_transition [] c3Store (by decide) (by decide)).1.trans (by decide)⟩

/-! ### Task serialization round trip -/

mutual
/-- Well-formed task values: `title` and `description` within the length caps
the data model imposes, recursively. -/
def Task.wf : Task → Bool
  | .mk _ ti _ _ ch _ d =>
    decide (ti.length ≤ MAX_TITLE_LENGTH) && decide (d.length ≤ MAX_DESCRIPTION_LENGTH) &&
      TaskList.wfL ch
def TaskList.wfL : TaskList → Bool
  | .nil => true
  | .cons t ts => Task.wf t && TaskList.wfL ts
end

theorem pySlice_of_le (s : String) (n : Nat) (h : s.length ≤ n) : pySlice n s = s := by
  unfold pySlice
  rw [List.take_of_length_le h]

mutual
theorem task_from_to_dict (t : Task) (h : Task.wf t = true) :
    Task.from_dict (Task.to_dict t) = t := by
  match t with
  | .mk i ti c co ch ca d =>
    simp only [Task.wf, Bool.and_eq_true, decide_eq_true_eq] at h
    obtain ⟨⟨h1, h2⟩, h3⟩ := h
    have hch : TaskDictList.from_dictL (TaskList.to_dictL ch) = ch :=
      tasklist_from_to_dict ch h3
    simp only [Task.to_dict, Task.from_dict, TaskDictChildren.from_dict, Option.getD_some]
    rw [pySlice_of_le ti MAX_TITLE_LENGTH h1, pySlice_of_le d MAX_DESCRIPTION_LENGTH h2, hch]
theorem tasklist_from_to_dict (ts : TaskList) (h : TaskList.wfL ts = true) :
    TaskDictList.from_dictL (TaskList.to_dictL ts) = ts := by
  match ts with
  | .nil => rfl
  | .cons t rest =>
    simp only [TaskList.wfL, Bool.and_eq_true] at h
    simp only [TaskList.to_dictL, TaskDictList.from_dictL]
    rw [task_from_to_dict t h.1, tasklist_from_to_dict rest h.2]
end

mutual
theorem task_from_dict_wf (td : TaskDict) : Task.wf (Task.from_dict td) = true := by
  match td with
  | .mk i ti c co ch ca d =>
    have hch := taskdictchildren_from_dict_wf ch
    simp only [Task.from_dict, Task.wf, Bool.and_eq_true, decide_eq_true_eq]
    exact ⟨⟨List.length_take_le _ _, List.length_take_le _ _⟩, hch⟩
theorem taskdictchildren_from_dict_wf (ch : TaskDictChildren) :
    TaskList.wfL (TaskDictChildren.from_dict ch) = true := by
  match ch with
  | .absent => rfl
  | .present l => exact taskdictlist_from_dict_wf l
theorem taskdictlist_from_dict_wf (l : TaskDictList) :
    TaskList.wfL (TaskDictList.from_dictL l) = true := by
  match l with
  | .nil => rfl
  | .cons t rest =>
    simp only [TaskDictList.from_dictL, TaskList.wfL, Bool.and_eq_true]
    exact ⟨task_from_dict_wf t, taskdictlist_from_dict_wf rest⟩
end

theorem tasklist_roundtrip_idem (l : TaskDictList) :
    TaskDictList.from_dictL (TaskList.to_dictL (TaskDictList.from_dictL l)) =
      TaskDictList.from_dictL l :=
  tasklist_from_to_dict _ (taskdictlist_from_dict_wf l)

/-! ### More association-list lemmas -/

theorem dictGet_some_mem {α : Type} (l : List (String × α)) (k : String) (v : α)
    (h : dictGet l k = some v) : (k, v) ∈ l := by
  induction l with
  | nil => simp [dictGet] at h
  | cons kv rest ih =>
    obtain ⟨a, b⟩ := kv
    by_cases ha : a = k
    · subst ha
      have hb : dictGet ((a, b) :: rest) a = some b := by simp [dictGet]
      rw [hb] at h
      injection h with h
      subst h
      exact List.mem_cons_self _ _
    · simp only [dictGet, if_neg ha] at h
      exact List.mem_cons_of_mem _ (ih h)

theorem dictGet_append_single_ne {α : Type} (l : List (String × α)) (b k : String)
    (x : α) (h : k ≠ b) : dictGet (l ++ [(b, x)]) k = dictGet l k := by
  induction l with
  | nil =>
    simp only [List.nil_append, dictGet]
    rw [if_neg (fun hh : b = k => h hh.symm)]
  | cons kv rest ih =>
    obtain ⟨a, c⟩ := kv
    by_cases ha : a = k
    · simp [dictGet, ha]
    · simp only [List.cons_append, dictGet, if_neg ha]
      exact ih

theorem dictKeys_set_of_not_mem {α : Type} (l : List (String × α)) (k : String) (v : α)
    (h : k ∉ dictKeys l) : dictKeys (dictSet l k v) = dictKeys l ++ [k] := by
  induction l with
  | nil => simp [dictSet, dictKeys]
  | cons kv rest ih =>
    obtain ⟨a, b⟩ := kv
    simp only [dictKeys, List.map_cons, List.mem_cons, not_or] at h
    have ha : a ≠ k := fun hh => h.1 hh.symm
    simp only [dictSet, if_neg ha, dictKeys, List.map_cons, List.cons_append,
      List.cons.injEq, true_and]
    exact ih h.2

theorem mem_dictKeys_set {α : Type} (l : List (String × α)) (k : String) (v : α)
    (i : String) : i ∈ dictKeys (dictSet l k v) ↔ i = k ∨ i ∈ dictKeys l := by
  by_cases h : k ∈ dictKeys l
  · rw [dictKeys_set_of_mem l k v h]
    constructor
    · exact fun hi => Or.inr hi
    · rintro (hi | hi)
      · exact hi ▸ h
      · exact hi
  · rw [dictKeys_set_of_not_mem l k v h]
    simp [List.mem_append, or_comm]

theorem dictSet_values_forall {α : Type} (P : α → Prop) (l : List (String × α))
    (k : String) (v : α) (hl : ∀ kv ∈ l, P kv.2) (hv : P v) :
    ∀ kv ∈ dictSet l k v, P kv.2 := by
  induction l with
  | nil =>
    intro kv hkv
    simp only [dictSet, List.mem_singleton] at hkv
    rw [hkv]
    exact hv
  | cons kv0 rest ih =>
    obtain ⟨a, b⟩ := kv0
    by_cases ha : a = k
    · intro kv hkv
      simp only [dictSet, if_pos ha, List.mem_cons] at hkv
      rcases hkv with hkv | hkv
      · rw [hkv]
        exact hv
      · exact hl kv (List.mem_cons_of_mem _ hkv)
    · intro kv hkv
      simp only [dictSet, if_neg ha, List.mem_cons] at hkv
      rcases hkv with hkv | hkv
      · exact hl kv (hkv ▸ List.mem_cons_self _ _)
      · exact ih (fun u hu => hl u (List.mem_cons_of_mem _ hu)) kv hkv

/-- The value of the last binding of `k` in a document (later entries of a
Python-dict-shaped list override earlier ones during loading). -/
def lastBinding (data : DataDict) (k : String) : Option TaskDictList :=
  match data with
  | [] => none
  | kv :: rest =>
    match lastBinding rest k with
    | some v => some v
    | none => if kv.1 = k then some kv.2 else none

theorem lastBinding_eq_none_iff (data : DataDict) (k : String) :
    lastBinding data k = none ↔ k ∉ dictKeys data := by
  induction data with
  | nil => simp [lastBinding, dictKeys]
  | cons kv rest ih =>
    obtain ⟨a, b⟩ := kv
    constructor
    · intro h hmem
      simp only [lastBinding] at h
      cases hr : lastBinding rest k with
      | some v =>
        rw [hr] at h
        exact absurd h (by simp)
      | none =>
        rw [hr] at h
        simp only [dictKeys, List.map_cons, List.mem_cons] at hmem
        rcases hmem with hmem | hmem
        · rw [if_pos hmem.symm] at h
          exact absurd h (by simp)
        · exact (ih.mp hr) hmem
    · intro hmem
      simp only [dictKeys, List.map_cons, List.mem_cons, not_or] at hmem
      have hr : lastBinding rest k = none := ih.mpr hmem.2
      simp only [lastBinding, hr]
      rw [if_neg (fun hh : a = k => hmem.1 hh.symm)]

theorem lastBinding_of_nodup (data : DataDict) (k : String)
    (h : (dictKeys data).Nodup) : lastBinding data k = dictGet data k := by
  induction data with
  | nil => rfl
  | cons kv rest ih =>
    obtain ⟨a, b⟩ := kv
    simp only [dictKeys, List.map_cons, List.nodup_cons] at h
    simp only [lastBinding, dictGet]
    rw [ih h.2]
    by_cases ha : a = k
    · subst ha
      have : dictGet rest a = none := (dictGet_eq_none_iff rest a).mpr h.1
      rw [this]
    · simp only [if_neg ha]
      cases dictGet rest k <;> rfl

theorem dictGet_map_values {α β : Type} (f : α → β) (l : List (String × α)) (k : String) :
    dictGet (l.map (fun kv => (kv.1, f kv.2))) k = (dictGet l k).map f := by
  induction l with
  | nil => rfl
  | cons kv rest ih =>
    obtain ⟨a, b⟩ := kv
    by_cases ha : a = k
    · simp [dictGet, ha]
    · simp [dictGet, ha, ih]

theorem dictKeys_map_values {α β : Type} (f : α → β) (l : List (String × α)) :
    dictKeys (l.map (fun kv => (kv.1, f kv.2))) = dictKeys l := by
  induction l with
  | nil => rfl
  | cons kv rest ih =>
    simp [dictKeys, ih]

/-- Association lists with the same key sequence, no duplicate keys and the
same lookup function are equal. -/
theorem dict_eq_of_keys_eq_of_get_eq {α : Type} (l₁ l₂ : List (String × α))
    (hk : dictKeys l₁ = dictKeys l₂) (hn : (dictKeys l₁).Nodup)
    (hg : ∀ k, dictGet l₁ k = dictGet l₂ k) : l₁ = l₂ := by
  induction l₁ generalizing l₂ with
  | nil =>
    cases l₂ with
    | nil => rfl
    | cons kv rest => simp [dictKeys] at hk
  | cons kv rest ih =>
    obtain ⟨a, b⟩ := kv
    cases l₂ with
    | nil => simp [dictKeys] at hk
    | cons kv₂ rest₂ =>
      obtain ⟨a₂, b₂⟩ := kv₂
      simp only [dictKeys, List.map_cons, List.cons.injEq] at hk
      obtain ⟨ha, hrest⟩ := hk
      subst ha
      simp only [dictKeys, List.map_cons, List.nodup_cons] at hn
      have hb : b = b₂ := by
        have h := hg a
        rw [show dictGet ((a, b) :: rest) a = some b from by simp [dictGet],
          show dictGet ((a, b₂) :: rest₂) a = some b₂ from by simp [dictGet]] at h
        injection h
      subst hb
      have hg' : ∀ k, dictGet rest k = dictGet rest₂ k := by
        intro k
        by_cases hka : a = k
        · subst hka
          have h1 : dictGet rest a = none := (dictGet_eq_none_iff rest a).mpr hn.1
          have h2 : dictGet rest₂ a = none := by
            rw [dictGet_eq_none_iff]
            show a ∉ List.map Prod.fst rest₂
            rw [← hrest]
            exact hn.1
          rw [h1, h2]
        · have := hg k
          simp only [dictGet, if_neg hka] at this
          exact this
      rw [ih rest₂ hrest hn.2 hg']

/-! ### Deserialization: load-fold characterization -/

/-- The keys `from_dict`'s generic loop loads: fixed or date-formatted. -/
def validKey (k : String) : Bool :=
  FIXED_BASKETS.contains k || is_date_basket k

theorem ensure_get_ne (s : TodoData) (b k : String) (h : k ≠ b) :
    dictGet (s.ensure_basket_exists b).baskets k = dictGet s.baskets k := by
  unfold TodoData.ensure_basket_exists
  by_cases hc : dictContains s.baskets b = true
  · rw [if_pos hc]
  · rw [if_neg hc]
    exact dictGet_append_single_ne _ _ _ _ h

theorem ensure_keys (s : TodoData) (b : String) :
    dictKeys (s.ensure_basket_exists b).baskets =
      if b ∈ dictKeys s.baskets then dictKeys s.baskets
      else dictKeys s.baskets ++ [b] := by
  unfold TodoData.ensure_basket_exists
  by_cases hm : b ∈ dictKeys s.baskets
  · rw [if_pos hm, if_pos (by rwa [dictContains, dictGet_isSome_iff])]
  · rw [if_neg hm, if_neg (by rwa [dictContains, dictGet_isSome_iff])]
    simp [dictKeys]

theorem loadStep_get_ne (td : TodoData) (kv : String × TaskDictList) (k : String)
    (h : k ≠ kv.1) : dictGet (loadStep td kv).baskets k = dictGet td.baskets k := by
  unfold loadStep
  by_cases hf : FIXED_BASKETS.contains kv.1 = true
  · rw [if_pos hf]
    exact dictGet_set_ne _ _ _ _ h
  · rw [if_neg hf]
    by_cases hd : is_date_basket kv.1 = true
    · rw [if_pos hd]
      rw [dictGet_set_ne _ _ _ _ h]
      exact ensure_get_ne td kv.1 k h
    · rw [if_neg hd]

theorem loadStep_get_self (td : TodoData) (kv : String × TaskDictList)
    (h : validKey kv.1 = true) :
    dictGet (loadStep td kv).baskets kv.1 = some (TaskDictList.from_dictL kv.2) := by
  unfold loadStep
  by_cases hf : FIXED_BASKETS.contains kv.1 = true
  · rw [if_pos hf]
    exact dictGet_set_self _ _ _
  · rw [if_neg hf]
    have hd : is_date_basket kv.1 = true := by
      simp only [validKey, Bool.or_eq_true] at h
      rcases h with h | h
      · exact absurd h hf
      · exact h
    rw [if_pos hd]
    exact dictGet_set_self _ _ _

theorem loadStep_of_invalid (td : TodoData) (kv : String × TaskDictList)
    (hf : FIXED_BASKETS.contains kv.1 = false) (hd : is_date_basket kv.1 = false) :
    loadStep td kv = td := by
  unfold loadStep
  rw [if_neg (by rw [hf]; simp), if_neg (by rw [hd]; simp)]

theorem validKey_split (k : String) (h : validKey k = false) :
    FIXED_BASKETS.contains k = false ∧ is_date_basket k = false := by
  unfold validKey at h
  cases hc1 : FIXED_BASKETS.contains k with
  | false =>
    cases hc2 : is_date_basket k with
    | false => exact ⟨rfl, rfl⟩
    | true =>
      rw [hc1, hc2] at h
      exact absurd h (by simp)
  | true =>
    rw [hc1] at h
    exact absurd h (by simp)

/-- Pointwise value of the generic load loop: a fixed or date key gets the
deserialization of its last binding in the document (or keeps the prior
store's value when unbound); any other key is untouched. -/
theorem loadFold_get (data : DataDict) : ∀ (td : TodoData) (k : String),
    dictGet ((data.foldl loadStep td).baskets) k =
      (if validKey k = true then
        match lastBinding data k with
        | some v => some (TaskDictList.from_dictL v)
        | none => dictGet td.baskets k
      else dictGet td.baskets k) := by
  induction data with
  | nil =>
    intro td k
    by_cases hv : validKey k = true
    · rw [if_pos hv]
      rfl
    · rw [if_neg hv]
      rfl
  | cons kv rest ih =>
    intro td k
    rw [List.foldl_cons, ih (loadStep td kv) k]
    by_cases hv : validKey k = true
    · rw [if_pos hv, if_pos hv]
      cases hr : lastBinding rest k with
      | some v => simp only [lastBinding, hr]
      | none =>
        simp only [lastBinding, hr]
        by_cases hk : kv.1 = k
        · rw [if_pos hk]
          subst hk
          exact loadStep_get_self td kv hv
        · rw [if_neg hk]
          exact loadStep_get_ne td kv k (fun h => hk h.symm)
    · rw [if_neg hv, if_neg hv]
      by_cases hk : kv.1 = k
      · subst hk
        obtain ⟨hf, hd⟩ := validKey_split kv.1 (by
          cases hb : validKey kv.1
          · rfl
          · exact absurd hb hv)
        rw [loadStep_of_invalid td kv hf hd]
      · exact loadStep_get_ne td kv k (fun h => hk h.symm)

theorem nodup_append_singleton (l : List String) (k : String) (h : k ∉ l)
    (hn : l.Nodup) : (l ++ [k]).Nodup := by
  rw [List.nodup_append]
  refine ⟨hn, List.nodup_singleton k, ?_⟩
  intro a ha hb
  rw [List.mem_singleton] at hb
  subst hb
  exact h ha

theorem loadStep_keys (td : TodoData) (kv : String × TaskDictList) :
    dictKeys (loadStep td kv).baskets =
      (if validKey kv.1 = true ∧ kv.1 ∉ dictKeys td.baskets
       then dictKeys td.baskets ++ [kv.1] else dictKeys td.baskets) := by
  by_cases hv : validKey kv.1 = true
  · unfold loadStep
    by_cases hf : FIXED_BASKETS.contains kv.1 = true
    · rw [if_pos hf]
      by_cases hm : kv.1 ∈ dictKeys td.baskets
      · rw [if_neg (by simp [hm]), dictKeys_set_of_mem _ _ _ hm]
      · rw [if_pos ⟨hv, hm⟩, dictKeys_set_of_not_mem _ _ _ hm]
    · have hd : is_date_basket kv.1 = true := by
        simp only [validKey, Bool.or_eq_true] at hv
        rcases hv with hv | hv
        · exact absurd hv hf
        · exact hv
      rw [if_neg hf, if_pos hd]
      by_cases hm : kv.1 ∈ dictKeys td.baskets
      · rw [if_neg (by simp [hm])]
        rw [dictKeys_set_of_mem, ensure_keys, if_pos hm]
        rw [ensure_keys, if_pos hm]
        exact hm
      · rw [if_pos ⟨hv, hm⟩]
        rw [dictKeys_set_of_mem, ensure_keys, if_neg hm]
        rw [ensure_keys, if_neg hm]
        simp
  · obtain ⟨hf, hd⟩ := validKey_split kv.1 (by
      cases hb : validKey kv.1
      · rfl
      · exact absurd hb hv)
    rw [loadStep_of_invalid td kv hf hd, if_neg (by simp [hv])]

theorem loadStep_keys_nodup (td : TodoData) (kv : String × TaskDictList)
    (h : (dictKeys td.baskets).Nodup) : (dictKeys (loadStep td kv).baskets).Nodup := by
  rw [loadStep_keys]
  by_cases hc : validKey kv.1 = true ∧ kv.1 ∉ dictKeys td.baskets
  · rw [if_pos hc]
    exact nodup_append_singleton _ _ hc.2 h
  · rw [if_neg hc]
    exact h

theorem loadFold_keys_nodup (data : DataDict) : ∀ (td : TodoData),
    (dictKeys td.baskets).Nodup → (dictKeys ((data.foldl loadStep td).baskets)).Nodup := by
  induction data with
  | nil => exact fun td h => h
  | cons kv rest ih =>
    intro td h
    rw [List.foldl_cons]
    exact ih _ (loadStep_keys_nodup td kv h)

theorem loadStep_values_wf (td : TodoData) (kv : String × TaskDictList)
    (h : ∀ e ∈ td.baskets, TaskList.wfL e.2 = true) :
    ∀ e ∈ (loadStep td kv).baskets, TaskList.wfL e.2 = true := by
  unfold loadStep
  by_cases hf : FIXED_BASKETS.contains kv.1 = true
  · rw [if_pos hf]
    exact dictSet_values_forall (fun ts => TaskList.wfL ts = true) _ _ _ h
      (taskdictlist_from_dict_wf kv.2)
  · rw [if_neg hf]
    by_cases hd : is_date_basket kv.1 = true
    · rw [if_pos hd]
      refine dictSet_values_forall (fun ts => TaskList.wfL ts = true) _ _ _ ?_
        (taskdictlist_from_dict_wf kv.2)
      unfold TodoData.ensure_basket_exists
      by_cases hc : dictContains td.baskets kv.1 = true
      · rw [if_pos hc]
        exact h
      · rw [if_neg hc]
        intro e he
        rcases List.mem_append.mp he with he | he
        · exact h e he
        · rw [List.mem_singleton.mp he]
          rfl
    · rw [if_neg hd]
      exact h

theorem loadFold_values_wf (data : DataDict) : ∀ (td : TodoData),
    (∀ e ∈ td.baskets, TaskList.wfL e.2 = true) →
    ∀ e ∈ ((data.foldl loadStep td).baskets), TaskList.wfL e.2 = true := by
  induction data with
  | nil => exact fun td h => h
  | cons kv rest ih =>
    intro td h
    rw [List.foldl_cons]
    exact ih _ (loadStep_values_wf td kv h)

/-! ### Store node lists and the rebuilt index -/

/-- All nodes of a basket mapping, basket by basket, preorder. -/
def storeNodesOf : List (String × TaskList) → List (String × Task)
  | [] => []
  | kv :: rest => TaskList.nodesL kv.2 ++ storeNodesOf rest

def storeIdsOf (bs : List (String × TaskList)) : List String :=
  (storeNodesOf bs).map Prod.fst

theorem rebuild_baskets (s : TodoData) : (s.rebuild_index).baskets = s.baskets := rfl

mutual
theorem mem_keys_indexInsertTask (t : Task) : ∀ (idx : List (String × Task)) (i : String),
    i ∈ dictKeys (indexInsertTask idx t) ↔ i ∈ Task.ids t ∨ i ∈ dictKeys idx := by
  match t with
  | .mk tid ti c co ch ca d =>
    intro idx i
    show i ∈ dictKeys (indexInsertList (dictSet idx tid (.mk tid ti c co ch ca d)) ch) ↔ _
    rw [mem_keys_indexInsertList ch (dictSet idx tid (.mk tid ti c co ch ca d)) i,
      mem_dictKeys_set]
    show _ ↔ i ∈ ((tid, Task.mk tid ti c co ch ca d) :: TaskList.nodesL ch).map Prod.fst ∨ _
    simp only [List.map_cons, List.mem_cons]
    constructor
    · rintro (h | h | h)
      · exact Or.inl (Or.inr h)
      · exact Or.inl (Or.inl h)
      · exact Or.inr h
    · rintro ((h | h) | h)
      · exact Or.inr (Or.inl h)
      · exact Or.inl h
      · exact Or.inr (Or.inr h)
theorem mem_keys_indexInsertList (ts : TaskList) : ∀ (idx : List (String × Task)) (i : String),
    i ∈ dictKeys (indexInsertList idx ts) ↔ i ∈ TaskList.idsL ts ∨ i ∈ dictKeys idx := by
  match ts with
  | .nil =>
    intro idx i
    simp [indexInsertList, TaskList.idsL, TaskList.nodesL]
  | .cons t rest =>
    intro idx i
    show i ∈ dictKeys (indexInsertList (indexInsertTask idx t) rest) ↔ _
    rw [mem_keys_indexInsertList rest (indexInsertTask idx t) i,
      mem_keys_indexInsertTask t idx i]
    show _ ↔ i ∈ (Task.nodes t ++ TaskList.nodesL rest).map Prod.fst ∨ _
    simp only [List.map_append, List.mem_append]
    unfold TaskList.idsL Task.ids
    tauto
end

theorem storeIdsOf_cons (kv : String × TaskList) (rest : List (String × TaskList)) :
    storeIdsOf (kv :: rest) = TaskList.idsL kv.2 ++ storeIdsOf rest := by
  show (TaskList.nodesL kv.2 ++ storeNodesOf rest).map Prod.fst = _
  rw [List.map_append]
  rfl

theorem mem_keys_rebuild_fold (bs : List (String × TaskList)) :
    ∀ (idx : List (String × Task)) (i : String),
    i ∈ dictKeys (bs.foldl (fun idx kv => indexInsertList idx kv.2) idx) ↔
      i ∈ storeIdsOf bs ∨ i ∈ dictKeys idx := by
  induction bs with
  | nil =>
    intro idx i
    simp [storeIdsOf, storeNodesOf]
  | cons kv rest ih =>
    intro idx i
    rw [List.foldl_cons, ih (indexInsertList idx kv.2) i, mem_keys_indexInsertList kv.2 idx i,
      storeIdsOf_cons]
    simp only [List.mem_append]
    tauto

theorem mem_keys_rebuild (s : TodoData) (i : String) :
    i ∈ dictKeys (s.rebuild_index).index ↔ i ∈ storeIdsOf s.baskets := by
  show i ∈ dictKeys (s.baskets.foldl (fun idx kv => indexInsertList idx kv.2) []) ↔ _
  rw [mem_keys_rebuild_fold s.baskets [] i]
  simp [dictKeys]

theorem mem_storeIdsOf (bs : List (String × TaskList)) (i : String)
    (hn : (dictKeys bs).Nodup) :
    i ∈ storeIdsOf bs ↔ ∃ k r, dictGet bs k = some r ∧ i ∈ TaskList.idsL r := by
  induction bs with
  | nil => simp [storeIdsOf, storeNodesOf, dictGet]
  | cons kv rest ih =>
    obtain ⟨b, ts⟩ := kv
    simp only [dictKeys, List.map_cons, List.nodup_cons] at hn
    rw [storeIdsOf_cons]
    simp only [List.mem_append]
    constructor
    · rintro (h | h)
      · exact ⟨b, ts, by simp [dictGet], h⟩
      · obtain ⟨k, r, hget, hmem⟩ := (ih hn.2).mp h
        have hkb : k ≠ b := by
          intro hh
          subst hh
          have : k ∈ dictKeys rest := by
            rw [← dictGet_isSome_iff]
            simp [hget]
          exact hn.1 this
        refine ⟨k, r, ?_, hmem⟩
        simp only [dictGet, if_neg (fun hh : b = k => hkb hh.symm)]
        exact hget
    · rintro ⟨k, r, hget, hmem⟩
      by_cases hkb : b = k
      · subst hkb
        have hb2 : dictGet ((b, ts) :: rest) b = some ts := by simp [dictGet]
        rw [hb2] at hget
        injection hget with hget
        subst hget
        exact Or.inl hmem
      · simp only [dictGet, if_neg hkb] at hget
        exact Or.inr ((ih hn.2).mpr ⟨k, r, hget, hmem⟩)

/-! ### from_dict assembly -/

theorem validKey_eq_is_valid (k : String) : validKey k = TodoData.is_valid_basket k := rfl

theorem valid_not_legacy (k : String) (h : TodoData.is_valid_basket k = true) :
    k ∉ LEGACY_DAY_BASKETS := by
  intro hmem
  simp [LEGACY_DAY_BASKETS] at hmem
  rcases hmem with rfl | rfl | rfl | rfl | rfl | rfl | rfl <;> exact absurd h (by decide)

theorem from_dict_eq_no_legacy (cw : List String) (data : DataDict)
    (h : data.any (fun kv => LEGACY_DAY_BASKETS.contains kv.1) = false) :
    TodoData.from_dict cw data true =
      (data.foldl loadStep (TodoData.init cw)).rebuild_index := by
  unfold TodoData.from_dict
  rw [h]
  simp

theorem from_dict_eq_legacy (cw : List String) (data : DataDict)
    (h : data.any (fun kv => LEGACY_DAY_BASKETS.contains kv.1) = true) :
    TodoData.from_dict cw data true =
      (data.foldl loadStep
        (LEGACY_DAY_BASKETS.enum.foldl (migStep data cw) (TodoData.init cw))).rebuild_index := by
  unfold TodoData.from_dict
  rw [h]
  simp

theorem init_keys (cw : List String) :
    dictKeys (TodoData.init cw).baskets = "Inbox" :: (cw ++ ["Later"]) := by
  simp only [TodoData.init, dictKeys, List.map_cons, List.map_append, List.map_map]
  show ("Inbox" :: (cw.map id ++ ["Later"])) = _
  rw [List.map_id]

theorem init_keys_nodup (cw : List String) (hcwn : cw.Nodup)
    (hcwd : ∀ w ∈ cw, is_date_basket w = true) :
    (dictKeys (TodoData.init cw).baskets).Nodup := by
  rw [init_keys]
  rw [List.nodup_cons]
  constructor
  · intro h
    rcases List.mem_append.mp h with h | h
    · have := hcwd _ h
      exact absurd this (by decide)
    · rw [List.mem_singleton] at h
      exact absurd h (by decide)
  · refine nodup_append_singleton cw "Later" ?_ hcwn
    intro h
    have := hcwd _ h
    exact absurd this (by decide)

/-- C4: deserializing a store's serialization reproduces every basket's
contents exactly (ids, titles, nesting, flags — indeed the whole task
records), and the rebuilt index holds exactly the same set of ids as the
original's index. -/
theorem c4_roundtrip (cw : List String) (s : TodoData)
    (hnodup : (dictKeys s.baskets).Nodup)
    (hvalid : ∀ k ∈ dictKeys s.baskets, TodoData.is_valid_basket k = true)
    (hInbox : "Inbox" ∈ dictKeys s.baskets)
    (hLater : "Later" ∈ dictKeys s.baskets)
    (hcwmem : ∀ w ∈ cw, w ∈ dictKeys s.baskets)
    (hcwd : ∀ w ∈ cw, is_date_basket w = true)
    (hcwn : cw.Nodup)
    (hwf : ∀ e ∈ s.baskets, TaskList.wfL e.2 = true)
    (hidx : ∀ i, i ∈ dictKeys s.index ↔ i ∈ storeIdsOf s.baskets) :
    (∀ k, dictGet (TodoData.from_dict cw (TodoData.to_dict s) true).baskets k
        = dictGet s.baskets k) ∧
    (∀ i, i ∈ dictKeys (TodoData.from_dict cw (TodoData.to_dict s) true).index
        ↔ i ∈ dictKeys s.index) := by
  have h0 : TodoData.to_dict s = s.baskets.map (fun kv => (kv.1, TaskList.to_dictL kv.2)) := rfl
  have hkeq : dictKeys (TodoData.to_dict s) = dictKeys s.baskets := by
    rw [h0]
    exact dictKeys_map_values TaskList.to_dictL s.baskets
  have hleg : (TodoData.to_dict s).any (fun kv => LEGACY_DAY_BASKETS.contains kv.1) = false := by
    rw [List.any_eq_false]
    intro kv hkv
    have hk : kv.1 ∈ dictKeys s.baskets := by
      rw [← hkeq]
      exact List.mem_map_of_mem Prod.fst hkv
    have hnl := valid_not_legacy kv.1 (hvalid kv.1 hk)
    simp [hnl]
  have hC := from_dict_eq_no_legacy cw (TodoData.to_dict s) hleg
  have hinitn : (dictKeys (TodoData.init cw).baskets).Nodup := init_keys_nodup cw hcwn hcwd
  have hget : ∀ k, dictGet (TodoData.from_dict cw (TodoData.to_dict s) true).baskets k
      = dictGet s.baskets k := by
    intro k
    rw [hC, rebuild_baskets, loadFold_get]
    by_cases hv : validKey k = true
    · rw [if_pos hv]
      have hlb : lastBinding (TodoData.to_dict s) k = dictGet (TodoData.to_dict s) k :=
        lastBinding_of_nodup _ _ (by rw [hkeq]; exact hnodup)
      rw [hlb, h0, dictGet_map_values]
      cases hg : dictGet s.baskets k with
      | some r =>
        have hwfr : TaskList.wfL r = true := hwf (k, r) (dictGet_some_mem _ _ _ hg)
        show some (TaskDictList.from_dictL (TaskList.to_dictL r)) = some r
        rw [tasklist_from_to_dict r hwfr]
      | none =>
        show dictGet (TodoData.init cw).baskets k = none
        rw [dictGet_eq_none_iff, init_keys]
        intro hmem
        have hks : k ∈ dictKeys s.baskets := by
          rcases List.mem_cons.mp hmem with h | h
          · exact h ▸ hInbox
          · rcases List.mem_append.mp h with h | h
            · exact hcwmem k h
            · rw [List.mem_singleton] at h
              exact h ▸ hLater
        rw [← dictGet_isSome_iff] at hks
        rw [hg] at hks
        exact absurd hks (by simp)
    · rw [if_neg hv]
      have hvf : validKey k = false := by
        cases hb : validKey k
        · rfl
        · exact absurd hb hv
      have h1 : dictGet (TodoData.init cw).baskets k = none := by
        rw [dictGet_eq_none_iff, init_keys]
        intro hmem
        rcases List.mem_cons.mp hmem with h | h
        · subst h
          exact absurd hvf (by decide)
        · rcases List.mem_append.mp h with h | h
          · have hd := hcwd k h
            have : validKey k = true := by
              unfold validKey
              rw [hd]
              simp
            rw [hvf] at this
            exact absurd this (by simp)
          · rw [List.mem_singleton] at h
            subst h
            exact absurd hvf (by decide)
      have h2 : dictGet s.baskets k = none := by
        rw [dictGet_eq_none_iff]
        intro hmem
        have hvk := hvalid k hmem
        rw [← validKey_eq_is_valid, hvf] at hvk
        exact absurd hvk (by simp)
      rw [h1, h2]
  have hget' : ∀ k, dictGet ((TodoData.to_dict s).foldl loadStep (TodoData.init cw)).baskets k
      = dictGet s.baskets k := by
    intro k
    rw [← rebuild_baskets ((TodoData.to_dict s).foldl loadStep (TodoData.init cw)), ← hC]
    exact hget k
  refine ⟨hget, ?_⟩
  intro i
  rw [hC, mem_keys_rebuild ((TodoData.to_dict s).foldl loadStep (TodoData.init cw)) i]
  have hrtn : (dictKeys ((TodoData.to_dict s).foldl loadStep (TodoData.init cw)).baskets).Nodup :=
    loadFold_keys_nodup _ _ hinitn
  rw [mem_storeIdsOf _ i hrtn, hidx i, mem_storeIdsOf s.baskets i hnodup]
  constructor
  · rintro ⟨k, r, hg2, hm⟩
    rw [hget' k] at hg2
    exact ⟨k, r, hg2, hm⟩
  · rintro ⟨k, r, hg2, hm⟩
    rw [← hget' k] at hg2
    exact ⟨k, r, hg2, hm⟩

def c4Task : Task := .mk "a" "milk" false false .nil "t0" ""

def c4Store : TodoData :=
  ⟨[("Inbox", .cons c4Task .nil), ("2026-10-12", .nil), ("Later", .nil)],
    [("a", c4Task)]⟩

/-! ### Migration-step lemmas and key sequences (for C5) -/

theorem migStep_get_ne (data : DataDict) (cw : List String) (td : TodoData)
    (p : Nat × String) (k : String) (h : k ≠ cw.getD p.1 "") :
    dictGet (migStep data cw td p).baskets k = dictGet td.baskets k := by
  rcases hE : dictGet data p.2 with _ | l
  · simp only [migStep, hE]
  · simp only [migStep, hE]
    by_cases hn : (!l.isNil) = true
    · rw [if_pos hn]
      rw [dictGet_set_ne _ _ _ _ h]
      exact ensure_get_ne _ _ _ h
    · rw [if_neg hn]

theorem migStep_get_self (data : DataDict) (cw : List String) (td : TodoData)
    (i : Nat) (day : String) (l : TaskDictList) (hday : dictGet data day = some l)
    (hne : (!l.isNil) = true) :
    dictGet (migStep data cw td (i, day)).baskets (cw.getD i "") =
      some (TaskDictList.from_dictL l) := by
  simp only [migStep, hday]
  rw [if_pos hne]
  exact dictGet_set_self _ _ _

theorem migStep_keys (data : DataDict) (cw : List String) (td : TodoData)
    (p : Nat × String) (h : cw.getD p.1 "" ∈ dictKeys td.baskets) :
    dictKeys (migStep data cw td p).baskets = dictKeys td.baskets := by
  rcases hE : dictGet data p.2 with _ | l
  · simp only [migStep, hE]
  · simp only [migStep, hE]
    by_cases hn : (!l.isNil) = true
    · rw [if_pos hn]
      rw [dictKeys_set_of_mem]
      · rw [ensure_keys, if_pos h]
      · rw [ensure_keys, if_pos h]
        exact h
    · rw [if_neg hn]

theorem migStep_values_wf (data : DataDict) (cw : List String) (td : TodoData)
    (p : Nat × String) (h : ∀ e ∈ td.baskets, TaskList.wfL e.2 = true) :
    ∀ e ∈ (migStep data cw td p).baskets, TaskList.wfL e.2 = true := by
  rcases hE : dictGet data p.2 with _ | l
  · simp only [migStep, hE]
    exact h
  · simp only [migStep, hE]
    by_cases hn : (!l.isNil) = true
    · rw [if_pos hn]
      refine dictSet_values_forall (fun ts => TaskList.wfL ts = true) _ _ _ ?_
        (taskdictlist_from_dict_wf l)
      unfold TodoData.ensure_basket_exists
      by_cases hc : dictContains td.baskets (cw.getD p.1 "") = true
      · rw [if_pos hc]
        exact h
      · rw [if_neg hc]
        intro e he
        rcases List.mem_append.mp he with he | he
        · exact h e he
        · rw [List.mem_singleton.mp he]
          rfl
    · rw [if_neg hn]
      exact h

theorem migFold_get_ne (data : DataDict) (cw : List String) :
    ∀ (ps : List (Nat × String)) (td : TodoData) (k : String),
    (∀ p ∈ ps, k ≠ cw.getD p.1 "") →
    dictGet ((ps.foldl (migStep data cw) td)).baskets k = dictGet td.baskets k := by
  intro ps
  induction ps with
  | nil => exact fun td k _ => rfl
  | cons p rest ih =>
    intro td k h
    rw [List.foldl_cons, ih _ k (fun q hq => h q (List.mem_cons_of_mem p hq))]
    exact migStep_get_ne data cw td p k (h p (List.mem_cons_self p rest))

theorem migFold_keys (data : DataDict) (cw : List String) :
    ∀ (ps : List (Nat × String)) (td : TodoData),
    (∀ p ∈ ps, cw.getD p.1 "" ∈ dictKeys td.baskets) →
    dictKeys ((ps.foldl (migStep data cw) td)).baskets = dictKeys td.baskets := by
  intro ps
  induction ps with
  | nil => exact fun td _ => rfl
  | cons p rest ih =>
    intro td h
    rw [List.foldl_cons]
    have hk := migStep_keys data cw td p (h p (List.mem_cons_self p rest))
    rw [ih _ (fun q hq => by rw [hk]; exact h q (List.mem_cons_of_mem p hq)), hk]

theorem migFold_values_wf (data : DataDict) (cw : List String) :
    ∀ (ps : List (Nat × String)) (td : TodoData),
    (∀ e ∈ td.baskets, TaskList.wfL e.2 = true) →
    ∀ e ∈ ((ps.foldl (migStep data cw) td)).baskets, TaskList.wfL e.2 = true := by
  intro ps
  induction ps with
  | nil => exact fun td h => h
  | cons p rest ih =>
    intro td h
    rw [List.foldl_cons]
    exact ih _ (migStep_values_wf data cw td p h)

/-- The key sequence produced by the generic load loop. -/
def loadKeys (data : DataDict) (ks : List String) : List String :=
  data.foldl (fun acc kv =>
    if validKey kv.1 = true ∧ kv.1 ∉ acc then acc ++ [kv.1] else acc) ks

theorem loadFold_keys (data : DataDict) : ∀ (td : TodoData),
    dictKeys ((data.foldl loadStep td).baskets) = loadKeys data (dictKeys td.baskets) := by
  induction data with
  | nil => exact fun td => rfl
  | cons kv rest ih =>
    intro td
    rw [List.foldl_cons, ih (loadStep td kv)]
    unfold loadKeys
    rw [List.foldl_cons, loadStep_keys]

/-- The load loop only ever appends new, valid keys at the end. -/
theorem loadKeys_extends (data : DataDict) : ∀ (ks : List String), ks.Nodup →
    ∃ ext, loadKeys data ks = ks ++ ext ∧ (∀ k ∈ ext, validKey k = true) ∧
      (ks ++ ext).Nodup := by
  induction data with
  | nil =>
    intro ks hn
    exact ⟨[], by simp [loadKeys], by simp, by simpa using hn⟩
  | cons kv rest ih =>
    intro ks hn
    unfold loadKeys
    rw [List.foldl_cons]
    by_cases hc : validKey kv.1 = true ∧ kv.1 ∉ ks
    · rw [if_pos hc]
      obtain ⟨ext, h1, h2, h3⟩ := ih (ks ++ [kv.1]) (nodup_append_singleton ks kv.1 hc.2 hn)
      refine ⟨kv.1 :: ext, ?_, ?_, ?_⟩
      · rw [show loadKeys rest (ks ++ [kv.1]) =
          List.foldl (fun acc kv => if validKey kv.1 = true ∧ kv.1 ∉ acc
            then acc ++ [kv.1] else acc) (ks ++ [kv.1]) rest from rfl] at h1
        rw [h1]
        simp
      · intro k hk
        rcases List.mem_cons.mp hk with hk | hk
        · exact hk ▸ hc.1
        · exact h2 k hk
      · have : ks ++ kv.1 :: ext = (ks ++ [kv.1]) ++ ext := by simp
        rw [this]
        exact h3
    · rw [if_neg hc]
      exact ih ks hn

/-- On a document whose keys are all valid and duplicate-free, the load loop
appends exactly the document keys not already present, in order. -/
theorem loadKeys_of_all_valid (data : DataDict) : ∀ (ks : List String),
    (dictKeys data).Nodup → (∀ k ∈ dictKeys data, validKey k = true) →
    loadKeys data ks = ks ++ (dictKeys data).filter (fun k => !(decide (k ∈ ks))) := by
  induction data with
  | nil =>
    intro ks _ _
    simp [loadKeys, dictKeys]
  | cons kv rest ih =>
    intro ks hn hv
    simp only [dictKeys, List.map_cons, List.nodup_cons] at hn
    have hv1 : validKey kv.1 = true := hv kv.1 (by simp [dictKeys])
    have hvrest : ∀ k ∈ dictKeys rest, validKey k = true := by
      intro k hk
      exact hv k (by simp only [dictKeys, List.map_cons, List.mem_cons]; exact Or.inr hk)
    unfold loadKeys
    rw [List.foldl_cons]
    by_cases hm : kv.1 ∈ ks
    · rw [if_neg (by simp [hm])]
      have := ih ks hn.2 hvrest
      unfold loadKeys at this
      rw [this]
      simp only [dictKeys, List.map_cons, List.filter_cons]
      rw [if_neg (by simp [hm])]
    · rw [if_pos ⟨hv1, hm⟩]
      have hih := ih (ks ++ [kv.1]) hn.2 hvrest
      unfold loadKeys at hih
      rw [hih]
      have hfeq : (dictKeys rest).filter (fun k => !(decide (k ∈ ks ++ [kv.1]))) =
          (dictKeys rest).filter (fun k => !(decide (k ∈ ks))) := by
        apply List.filter_congr
        intro k hk
        have hkne : k ≠ kv.1 := fun he => hn.1 (he ▸ hk)
        simp [List.mem_append, hkne]
      rw [hfeq]
      simp only [dictKeys, List.map_cons, List.filter_cons]
      rw [if_pos (by simp [hm])]
      simp

theorem c4_roundtrip_witness :
    (dictKeys c4Store.baskets).Nodup ∧
    (∀ k ∈ dictKeys c4Store.baskets, TodoData.is_valid_basket k = true) ∧
    dictGet (TodoData.from_dict ["2026-10-12"] (TodoData.to_dict c4Store) true).baskets "Inbox"
      = dictGet c4Store.baskets "Inbox" :=
  ⟨by decide, by decide,
    (c4_roundtrip ["2026-10-12"] c4Store (by decide) (by decide) (by decide) (by decide)
      (by decide) (by decide) (by decide) (by decide) (fun i => Iff.rfl)).1 "Inbox"⟩

/-! ### Serialize/reload fixed point and legacy migration (C5) -/

theorem init_values_wf (cw : List String) :
    ∀ e ∈ (TodoData.init cw).baskets, TaskList.wfL e.2 = true := by
  intro e he
  simp only [TodoData.init] at he
  rcases List.mem_cons.mp he with rfl | he
  · rfl
  · rcases List.mem_append.mp he with he | he
    · obtain ⟨d, _, rfl⟩ := List.mem_map.mp he
      rfl
    · rw [List.mem_singleton.mp he]
      rfl

theorem getD_mem_of_lt (cw : List String) (i : Nat) (h : i < cw.length) :
    cw.getD i "" ∈ cw := by
  rw [List.getD_eq_getElem cw "" h]
  exact List.getElem_mem h

theorem getD_ne_of_nodup (cw : List String) (hn : cw.Nodup) (i j : Nat)
    (hi : i < cw.length) (hj : j < cw.length) (hij : i ≠ j) :
    cw.getD i "" ≠ cw.getD j "" := by
  rw [List.getD_eq_getElem cw "" hi, List.getD_eq_getElem cw "" hj]
  intro he
  exact hij (List.Nodup.getElem_inj_iff hn |>.mp he)

theorem filter_not_mem_append (K0 ext : List String) (hd : ∀ k ∈ ext, k ∉ K0) :
    (K0 ++ ext).filter (fun k => !(decide (k ∈ K0))) = ext := by
  rw [List.filter_append]
  rw [List.filter_eq_nil_iff.mpr (fun a ha hp => by simp at hp; exact hp ha)]
  rw [List.filter_eq_self.mpr (fun a ha => by simp [hd a ha])]
  simp

theorem init_keys_valid (cw : List String) (hcwd : ∀ w ∈ cw, is_date_basket w = true) :
    ∀ k ∈ dictKeys (TodoData.init cw).baskets, validKey k = true := by
  intro k hk
  rw [init_keys] at hk
  rcases List.mem_cons.mp hk with rfl | hk
  · rfl
  · rcases List.mem_append.mp hk with hk | hk
    · unfold validKey
      rw [hcwd k hk]
      simp
    · rw [List.mem_singleton.mp hk]
      rfl

theorem legacy_enum_eq : LEGACY_DAY_BASKETS.enum =
    [(0, "Monday"), (1, "Tuesday"), (2, "Wednesday"), (3, "Thursday"),
     (4, "Friday"), (5, "Saturday"), (6, "Sunday")] := rfl

theorem migFold_init_keys (data : DataDict) (cw : List String) (hcw7 : cw.length = 7) :
    dictKeys ((LEGACY_DAY_BASKETS.enum.foldl (migStep data cw) (TodoData.init cw)).baskets) =
      dictKeys (TodoData.init cw).baskets := by
  apply migFold_keys
  intro p hp
  have h1 : p.1 < 7 := by
    rw [legacy_enum_eq] at hp
    simp only [List.mem_cons, List.not_mem_nil, or_false] at hp
    rcases hp with rfl | rfl | rfl | rfl | rfl | rfl | rfl <;> decide
  rw [init_keys]
  exact List.mem_cons_of_mem _ (List.mem_append_left _ (getD_mem_of_lt cw p.1 (by omega)))

/-- The store state `from_dict` has built just before its generic loop over
`data.items()` (initial baskets, plus the legacy migration when it applies). -/
def preload (cw : List String) (data : DataDict) (migrate_legacy : Bool) : TodoData :=
  if data.any (fun kv => LEGACY_DAY_BASKETS.contains kv.1) && migrate_legacy then
    LEGACY_DAY_BASKETS.enum.foldl (migStep data cw) (TodoData.init cw)
  else TodoData.init cw

theorem from_dict_eq_preload (cw : List String) (data : DataDict) (m : Bool) :
    TodoData.from_dict cw data m =
      (data.foldl loadStep (preload cw data m)).rebuild_index := rfl

theorem preload_keys (cw : List String) (data : DataDict) (m : Bool) (hcw7 : cw.length = 7) :
    dictKeys (preload cw data m).baskets = dictKeys (TodoData.init cw).baskets := by
  unfold preload
  by_cases hc : (data.any (fun kv => LEGACY_DAY_BASKETS.contains kv.1) && m) = true
  · rw [if_pos hc]
    exact migFold_init_keys data cw hcw7
  · rw [if_neg hc]

theorem preload_values_wf (cw : List String) (data : DataDict) (m : Bool) :
    ∀ e ∈ (preload cw data m).baskets, TaskList.wfL e.2 = true := by
  unfold preload
  by_cases hc : (data.any (fun kv => LEGACY_DAY_BASKETS.contains kv.1) && m) = true
  · rw [if_pos hc]
    exact migFold_values_wf data cw _ _ (init_values_wf cw)
  · rw [if_neg hc]
    exact init_values_wf cw

/-- Keys of a `from_dict` result: the initial keys followed by the document's
new valid keys, all valid and duplicate-free. -/
theorem from_dict_keys_facts (cw : List String) (data : DataDict) (m : Bool)
    (hcw7 : cw.length = 7) (hcwd : ∀ w ∈ cw, is_date_basket w = true) (hcwn : cw.Nodup) :
    ∃ ext, dictKeys (TodoData.from_dict cw data m).baskets =
        dictKeys (TodoData.init cw).baskets ++ ext ∧
      (∀ k ∈ dictKeys (TodoData.from_dict cw data m).baskets, validKey k = true) ∧
      (dictKeys (TodoData.from_dict cw data m).baskets).Nodup := by
  rw [from_dict_eq_preload, rebuild_baskets, loadFold_keys, preload_keys cw data m hcw7]
  obtain ⟨ext, h1, h2, h3⟩ :=
    loadKeys_extends data (dictKeys (TodoData.init cw).baskets) (init_keys_nodup cw hcwn hcwd)
  refine ⟨ext, h1, ?_, by rw [h1]; exact h3⟩
  intro k hk
  rw [h1] at hk
  rcases List.mem_append.mp hk with hk | hk
  · exact init_keys_valid cw hcwd k hk
  · exact h2 k hk

theorem from_dict_values_wf (cw : List String) (data : DataDict) (m : Bool) :
    ∀ e ∈ (TodoData.from_dict cw data m).baskets, TaskList.wfL e.2 = true := by
  rw [from_dict_eq_preload, rebuild_baskets]
  exact loadFold_values_wf data _ (preload_values_wf cw data m)

theorem rebuild_eq_of_baskets_eq (s t : TodoData) (h : s.baskets = t.baskets) :
    s.rebuild_index = t.rebuild_index := by
  unfold TodoData.rebuild_index
  rw [h]

/-- Reloading the serialization of a basket mapping whose keys extend the
initial keys with valid fresh keys reproduces that mapping exactly. -/
theorem reload_baskets_eq (cw : List String) (B : List (String × TaskList)) (ext : List String)
    (hK : dictKeys B = dictKeys (TodoData.init cw).baskets ++ ext)
    (hN : (dictKeys B).Nodup)
    (hV : ∀ k ∈ dictKeys B, validKey k = true)
    (hW : ∀ e ∈ B, TaskList.wfL e.2 = true)
    (hcwd : ∀ w ∈ cw, is_date_basket w = true) :
    ((B.map (fun kv => (kv.1, TaskList.to_dictL kv.2))).foldl loadStep
      (TodoData.init cw)).baskets = B := by
  have hdk : dictKeys (B.map (fun kv => (kv.1, TaskList.to_dictL kv.2))) = dictKeys B :=
    dictKeys_map_values _ _
  have hdisj : ∀ k ∈ ext, k ∉ dictKeys (TodoData.init cw).baskets := by
    intro k hk hk0
    have hN2 := hN
    rw [hK, List.nodup_append] at hN2
    exact hN2.2.2 hk0 hk
  have hK1 : dictKeys (((B.map (fun kv => (kv.1, TaskList.to_dictL kv.2))).foldl loadStep
      (TodoData.init cw)).baskets) = dictKeys B := by
    rw [loadFold_keys]
    rw [loadKeys_of_all_valid _ _ (by rw [hdk]; exact hN)
      (by rw [hdk]; intro k hk; exact hV k hk)]
    rw [hdk, hK, filter_not_mem_append _ _ hdisj]
  refine dict_eq_of_keys_eq_of_get_eq _ _ hK1 (by rw [hK1]; exact hN) ?_
  intro k
  rw [loadFold_get]
  by_cases hv : validKey k = true
  · rw [if_pos hv]
    rw [lastBinding_of_nodup _ _ (by rw [hdk]; exact hN)]
    rw [dictGet_map_values]
    cases hB : dictGet B k with
    | some ts =>
      show some (TaskDictList.from_dictL (TaskList.to_dictL ts)) = some ts
      rw [tasklist_from_to_dict ts (hW (k, ts) (dictGet_some_mem B k ts hB))]
    | none =>
      show dictGet (TodoData.init cw).baskets k = none
      have hk0 : k ∉ dictKeys B := (dictGet_eq_none_iff B k).mp hB
      refine (dictGet_eq_none_iff _ k).mpr ?_
      intro hkinit
      exact hk0 (by rw [hK]; exact List.mem_append_left _ hkinit)
  · rw [if_neg hv]
    have h1 : dictGet (TodoData.init cw).baskets k = none :=
      (dictGet_eq_none_iff _ k).mpr (fun hk => hv (init_keys_valid cw hcwd k hk))
    have h2 : dictGet B k = none :=
      (dictGet_eq_none_iff _ k).mpr (fun hk => hv (hV k hk))
    rw [h1, h2]

/-- A `from_dict` result serializes and reloads to itself (with the current
week held fixed). -/
theorem from_dict_fixed_point (cw : List String) (data : DataDict) (m : Bool)
    (hcw7 : cw.length = 7) (hcwd : ∀ w ∈ cw, is_date_basket w = true) (hcwn : cw.Nodup) :
    TodoData.from_dict cw (TodoData.to_dict (TodoData.from_dict cw data m)) true =
      TodoData.from_dict cw data m := by
  obtain ⟨ext, hext, hvalid, hnodup⟩ := from_dict_keys_facts cw data m hcw7 hcwd hcwn
  have hwf := from_dict_values_wf cw data m
  have hleg : (TodoData.to_dict (TodoData.from_dict cw data m)).any
      (fun kv => LEGACY_DAY_BASKETS.contains kv.1) = false := by
    rw [List.any_eq_false]
    intro kv hkv hc
    have hk1 : kv.1 ∈ dictKeys (TodoData.to_dict (TodoData.from_dict cw data m)) := by
      show kv.1 ∈ (TodoData.to_dict (TodoData.from_dict cw data m)).map Prod.fst
      exact List.mem_map.mpr ⟨kv, hkv, rfl⟩
    rw [show dictKeys (TodoData.to_dict (TodoData.from_dict cw data m)) =
      dictKeys (TodoData.from_dict cw data m).baskets from dictKeys_map_values _ _] at hk1
    have hmem : kv.1 ∈ LEGACY_DAY_BASKETS := by simpa using hc
    exact valid_not_legacy kv.1 (by rw [← validKey_eq_is_valid]; exact hvalid kv.1 hk1) hmem
  rw [from_dict_eq_no_legacy _ _ hleg]
  rw [show TodoData.from_dict cw data m =
    (data.foldl loadStep (preload cw data m)).rebuild_index from rfl]
  apply rebuild_eq_of_baskets_eq
  have hBb : (TodoData.from_dict cw data m).baskets =
      (data.foldl loadStep (preload cw data m)).baskets := rfl
  rw [show TodoData.to_dict ((data.foldl loadStep (preload cw data m)).rebuild_index) =
    ((data.foldl loadStep (preload cw data m)).baskets).map
      (fun kv => (kv.1, TaskList.to_dictL kv.2)) from rfl]
  exact reload_baskets_eq cw _ ext (hBb ▸ hext) (hBb ▸ hnodup)
    (fun k hk => hvalid k (hBb ▸ hk)) (fun e he => hwf e (hBb ▸ he)) hcwd

def c5cw : List String :=
  ["2026-10-12", "2026-10-13", "2026-10-14", "2026-10-15", "2026-10-16",
   "2026-10-17", "2026-10-18"]

def c5td : TaskDict :=
  .mk "m1" (some "Legacy Monday task") (some false) (some false) .absent "2020-01-01" (some "")

def c5monList : TaskDictList := .cons c5td .nil

def c5docClobber : DataDict := [("Monday", c5monList), ("2026-10-12", TaskDictList.nil)]

def c5doc : DataDict := [("Monday", c5monList)]

/-- C5 counterexample: the claim's unconditional placement reading fails. In a
document holding both a legacy `"Monday"` list and the current week's Monday
date key, the generic load loop afterwards overwrites the migrated tasks: the
result's Monday basket is the document's (empty) date-key list, not the
migrated legacy list. -/
theorem c5_counterexample :
    dictGet c5docClobber "Monday" = some c5monList ∧
    c5cw.getD 0 "" = "2026-10-12" ∧
    TaskDictList.from_dictL c5monList ≠ TaskList.nil ∧
    dictGet (TodoData.from_dict c5cw c5docClobber true).baskets "2026-10-12" =
      some TaskList.nil := by
  refine ⟨rfl, rfl, ?_, rfl⟩
  intro h
  exact TaskList.noConfusion h

/-- C5 (corrected): when the persisted document holds a non-empty task list
under `"Monday"` and does not itself bind the current week's Monday date key,
`from_dict` with migration enabled places those tasks (deserialized verbatim)
under the date key equal to the current week's Monday; and for every document,
applying `from_dict` to the `to_dict` serialization of a `from_dict` result
reproduces that result exactly (the migrated format is a fixed point). -/
theorem c5_legacy_migration (cw : List String) (data : DataDict) (l : TaskDictList)
    (hcw7 : cw.length = 7) (hcwd : ∀ w ∈ cw, is_date_basket w = true) (hcwn : cw.Nodup)
    (hMon : dictGet data "Monday" = some l) (hne : (!l.isNil) = true)
    (hnoclob : cw.getD 0 "" ∉ dictKeys data) :
    dictGet (TodoData.from_dict cw data true).baskets (cw.getD 0 "") =
      some (TaskDictList.from_dictL l) ∧
    TodoData.from_dict cw (TodoData.to_dict (TodoData.from_dict cw data true)) true =
      TodoData.from_dict cw data true := by
  constructor
  · have hleg : data.any (fun kv => LEGACY_DAY_BASKETS.contains kv.1) = true := by
      rw [List.any_eq_true]
      refine ⟨("Monday", l), dictGet_some_mem data "Monday" l hMon, ?_⟩
      show LEGACY_DAY_BASKETS.contains "Monday" = true
      decide
    rw [from_dict_eq_legacy cw data hleg, rebuild_baskets, loadFold_get]
    have hv : validKey (cw.getD 0 "") = true := by
      unfold validKey
      rw [hcwd _ (getD_mem_of_lt cw 0 (by omega))]
      simp
    rw [if_pos hv]
    rw [(lastBinding_eq_none_iff data _).mpr hnoclob]
    show dictGet ((LEGACY_DAY_BASKETS.enum.foldl (migStep data cw)
      (TodoData.init cw)).baskets) (cw.getD 0 "") = some (TaskDictList.from_dictL l)
    rw [legacy_enum_eq, List.foldl_cons]
    have hdist : ∀ p ∈ [(1, "Tuesday"), (2, "Wednesday"), (3, "Thursday"), (4, "Friday"),
        (5, "Saturday"), (6, "Sunday")], cw.getD 0 "" ≠ cw.getD p.1 "" := by
      intro p hp
      simp only [List.mem_cons, List.not_mem_nil, or_false] at hp
      have h1 : p.1 ≠ 0 ∧ p.1 < 7 := by
        rcases hp with rfl | rfl | rfl | rfl | rfl | rfl <;> exact ⟨by decide, by decide⟩
      exact getD_ne_of_nodup cw hcwn 0 p.1 (by omega) (by omega) (fun h => h1.1 h.symm)
    rw [migFold_get_ne data cw _ _ _ hdist]
    exact migStep_get_self data cw (TodoData.init cw) 0 "Monday" l hMon hne
  · exact from_dict_fixed_point cw data true hcw7 hcwd hcwn

theorem c5_legacy_migration_witness :
    dictGet (TodoData.from_dict c5cw c5doc true).baskets "2026-10-12" =
      some (TaskDictList.from_dictL c5monList) ∧
    TodoData.from_dict c5cw (TodoData.to_dict (TodoData.from_dict c5cw c5doc true)) true =
      TodoData.from_dict c5cw c5doc true :=
  c5_legacy_migration c5cw c5doc c5monList (by decide) (by decide) (by decide) rfl rfl
    (by decide)

/-! ### Adding a task under a parent (C10) -/

theorem task_ids_eq (tid ti : String) (c co : Bool) (ch : TaskList) (ca d : String) :
    Task.ids (.mk tid ti c co ch ca d) = tid :: TaskList.idsL ch := by
  unfold Task.ids Task.nodes TaskList.idsL
  rw [List.map_cons]

theorem tasklist_idsL_cons (t : Task) (ts : TaskList) :
    TaskList.idsL (.cons t ts) = Task.ids t ++ TaskList.idsL ts := by
  show (Task.nodes t ++ TaskList.nodesL ts).map Prod.fst = _
  rw [List.map_append]
  rfl

theorem updT_self (i : String) (f : Task → Task) (t : Task) (h : t.id = i) :
    Task.updT i f t = f t := by
  cases t with
  | mk tid ti c co ch ca d =>
    unfold Task.updT
    exact if_pos h

mutual
theorem updT_not_mem (i : String) (f : Task → Task) : ∀ (t : Task),
    i ∉ Task.ids t → Task.updT i f t = t
  | .mk tid ti c co ch ca d, h => by
    rw [task_ids_eq] at h
    unfold Task.updT
    rw [if_neg (fun he : tid = i => h (he ▸ List.mem_cons_self tid _))]
    rw [updL_not_mem i f ch (fun hm => h (List.mem_cons_of_mem tid hm))]
theorem updL_not_mem (i : String) (f : Task → Task) : ∀ (ts : TaskList),
    i ∉ TaskList.idsL ts → TaskList.updL i f ts = ts
  | .nil, _ => rfl
  | .cons t ts, h => by
    rw [tasklist_idsL_cons] at h
    unfold TaskList.updL
    rw [updT_not_mem i f t (fun hm => h (List.mem_append_left _ hm)),
        updL_not_mem i f ts (fun hm => h (List.mem_append_right _ hm))]
end

mutual
theorem dictGet_indexInsertTask_ne (k : String) : ∀ (idx : List (String × Task)) (t : Task),
    k ∉ Task.ids t → dictGet (indexInsertTask idx t) k = dictGet idx k
  | idx, .mk tid ti c co ch ca d, h => by
    rw [task_ids_eq] at h
    unfold indexInsertTask
    rw [dictGet_indexInsertList_ne k _ ch (fun hm => h (List.mem_cons_of_mem tid hm))]
    exact dictGet_set_ne _ _ _ _ (fun he : k = tid => h (he ▸ List.mem_cons_self tid _))
theorem dictGet_indexInsertList_ne (k : String) : ∀ (idx : List (String × Task)) (ts : TaskList),
    k ∉ TaskList.idsL ts → dictGet (indexInsertList idx ts) k = dictGet idx k
  | _, .nil, _ => rfl
  | idx, .cons t ts, h => by
    rw [tasklist_idsL_cons] at h
    unfold indexInsertList
    rw [dictGet_indexInsertList_ne k _ ts (fun hm => h (List.mem_append_right _ hm)),
        dictGet_indexInsertTask_ne k idx t (fun hm => h (List.mem_append_left _ hm))]
end

/-- `add_task` with a resolvable parent id: the exact result store. -/
theorem add_task_parent_eq (s : TodoData) (B : String) (task par : Task) (pid : String)
    (hBv : TodoData.is_valid_basket B = true) (hpid : pid ≠ "")
    (hcont : dictContains s.baskets B = true) (hfind : s.find_task pid = some par) :
    s.add_task B task (some pid) =
      (true, { baskets := (s.mutate_at pid (fun p => p.add_child task)).baskets,
               index := indexInsertTask
                 (s.mutate_at pid (fun p => p.add_child task)).index task }) := by
  have htr : truthy (some pid) = true := by simp [truthy, hpid]
  simp only [TodoData.add_task]
  rw [if_neg (by rw [hBv]; decide)]
  rw [ensure_of_contains s B hcont]
  rw [htr, if_pos rfl]
  rw [show s.find_task ((some pid).getD "") = some par from hfind]
  rfl

/-- `add_task` with an unresolvable parent id on an absent valid basket:
failure, but the basket is still materialized. -/
theorem add_task_parent_fail_eq (s : TodoData) (B : String) (task : Task) (pid : String)
    (hBv : TodoData.is_valid_basket B = true) (hpid : pid ≠ "")
    (hnc : dictContains s.baskets B = false) (hfind : s.find_task pid = none) :
    s.add_task B task (some pid) =
      (false, { baskets := s.baskets ++ [(B, TaskList.nil)], index := s.index }) := by
  have htr : truthy (some pid) = true := by simp [truthy, hpid]
  have hens : s.ensure_basket_exists B =
      { baskets := s.baskets ++ [(B, TaskList.nil)], index := s.index } := by
    unfold TodoData.ensure_basket_exists
    rw [if_neg (by rw [hnc]; decide)]
  simp only [TodoData.add_task]
  rw [if_neg (by rw [hBv]; decide)]
  rw [hens]
  rw [htr, if_pos rfl]
  rw [show TodoData.find_task
    { baskets := s.baskets ++ [(B, TaskList.nil)], index := s.index } ((some pid).getD "")
    = none from hfind]

/-- C10 (confirmed): with a resolvable non-empty parent id, `add_task` succeeds,
the parent (located via the index, possibly in a basket other than `B`) gains
the task as its new last child, and `B`'s root list is untouched; with a valid
basket key not yet present and an unresolvable parent id, the call fails but
still materializes the basket as an empty entry. -/
theorem c10_add_task (s s2 : TodoData) (B B2 : String) (task t2 par : Task)
    (pid p2 : String) (rootsB : TaskList)
    (hBv : TodoData.is_valid_basket B = true) (hpid : pid ≠ "")
    (hfind : s.find_task pid = some par) (hparid : par.id = pid)
    (hBroots : dictGet s.baskets B = some rootsB)
    (hnotin : pid ∉ TaskList.idsL rootsB) (hfresh : pid ∉ Task.ids task)
    (hBv2 : TodoData.is_valid_basket B2 = true) (hp2 : p2 ≠ "")
    (hnc2 : dictContains s2.baskets B2 = false) (hnores : s2.find_task p2 = none) :
    ((s.add_task B task (some pid)).1 = true ∧
     (s.add_task B task (some pid)).2.find_task pid = some (par.add_child task) ∧
     dictGet (s.add_task B task (some pid)).2.baskets B = some rootsB) ∧
    s2.add_task B2 t2 (some p2) =
      (false, { baskets := s2.baskets ++ [(B2, TaskList.nil)], index := s2.index }) := by
  have hcont : dictContains s.baskets B = true := by
    rw [show dictContains s.baskets B = (dictGet s.baskets B).isSome from rfl, hBroots]
    rfl
  have hres := add_task_parent_eq s B task par pid hBv hpid hcont hfind
  refine ⟨⟨by rw [hres], ?_, ?_⟩, add_task_parent_fail_eq s2 B2 t2 p2 hBv2 hp2 hnc2 hnores⟩
  · rw [hres]
    show dictGet (indexInsertTask
      (s.mutate_at pid (fun p => p.add_child task)).index task) pid = _
    rw [dictGet_indexInsertTask_ne pid _ task hfresh]
    show dictGet (s.index.map (fun kv => (kv.1, Task.updT pid (fun p => p.add_child task) kv.2)))
      pid = _
    rw [dictGet_map_values]
    rw [show dictGet s.index pid = some par from hfind]
    show some (Task.updT pid (fun p => p.add_child task) par) = _
    rw [updT_self pid _ par hparid]
  · rw [hres]
    show dictGet (s.baskets.map
      (fun kv => (kv.1, TaskList.updL pid (fun p => p.add_child task) kv.2))) B = _
    rw [dictGet_map_values, hBroots]
    show some (TaskList.updL pid (fun p => p.add_child task) rootsB) = _
    rw [updL_not_mem pid _ rootsB hnotin]

def c10Par : Task := .mk "p" "Parent" false false .nil "2020-01-01" ""

def c10New : Task := .mk "n" "New" false false .nil "2020-01-02" ""

def c10Store : TodoData :=
  { baskets := [("Inbox", .cons c10Par .nil), ("Later", .nil)],
    index := [("p", c10Par)] }

def c10Store2 : TodoData := { baskets := [("Inbox", .nil)], index := [] }

theorem c10_add_task_witness :
    ((c10Store.add_task "Later" c10New (some "p")).1 = true ∧
     (c10Store.add_task "Later" c10New (some "p")).2.find_task "p" =
       some (c10Par.add_child c10New) ∧
     dictGet (c10Store.add_task "Later" c10New (some "p")).2.baskets "Later" =
       some TaskList.nil) ∧
    c10Store2.add_task "2026-10-12" c10New (some "q") =
      (false, { baskets := c10Store2.baskets ++ [("2026-10-12", TaskList.nil)],
                index := c10Store2.index }) :=
  c10_add_task c10Store c10Store2 "Later" "2026-10-12" c10New c10New c10Par "p" "q"
    TaskList.nil (by decide) (by decide) rfl rfl rfl (by decide) (by decide) (by decide)
    (by decide) rfl rfl

/-! ### `move_task` failure paths (C1) -/

/-- The detach phase of `move_task` (the store after the task has been removed
from its source, before reattachment is attempted). -/
def moveDetach (s : TodoData) (task_id : String) (task : Task)
    (from_basket : String) (from_parent_id : Option String) : TodoData :=
  if truthy from_parent_id then
    match s.find_task (from_parent_id.getD "") with
    | some _ => s.mutate_at (from_parent_id.getD "") (fun p => p.remove_child task_id)
    | none => s
  else
    let roots := TaskList.filter (fun t => !(t.id == task_id))
      ((dictGet s.baskets from_basket).getD .nil)
    { s with baskets := dictSet s.baskets from_basket roots }

theorem move_task_invalid (s : TodoData) (task_id to_basket : String)
    (to_parent_id : Option String) (hv : TodoData.is_valid_basket to_basket = false) :
    s.move_task task_id to_basket to_parent_id = (false, s) := by
  simp only [TodoData.move_task]
  rw [if_pos (by rw [hv]; rfl)]

theorem move_task_noloc (s : TodoData) (task_id to_basket : String)
    (to_parent_id : Option String) (hv : TodoData.is_valid_basket to_basket = true)
    (hloc : (s.ensure_basket_exists to_basket).find_task_location task_id = none) :
    s.move_task task_id to_basket to_parent_id =
      (false, s.ensure_basket_exists to_basket) := by
  simp only [TodoData.move_task]
  rw [if_neg (by rw [hv]; decide)]
  simp only [hloc]

theorem move_task_notask (s : TodoData) (task_id to_basket : String)
    (to_parent_id : Option String) (fb : String) (fp : Option String)
    (hv : TodoData.is_valid_basket to_basket = true)
    (hloc : (s.ensure_basket_exists to_basket).find_task_location task_id = some (fb, fp))
    (hft : (s.ensure_basket_exists to_basket).find_task task_id = none) :
    s.move_task task_id to_basket to_parent_id =
      (false, s.ensure_basket_exists to_basket) := by
  simp only [TodoData.move_task]
  rw [if_neg (by rw [hv]; decide)]
  simp only [hloc, hft]

theorem move_task_strand (s : TodoData) (task_id to_basket : String)
    (to_parent_id : Option String) (task : Task) (fb : String) (fp : Option String)
    (hv : TodoData.is_valid_basket to_basket = true)
    (hloc : (s.ensure_basket_exists to_basket).find_task_location task_id = some (fb, fp))
    (hft : (s.ensure_basket_exists to_basket).find_task task_id = some task)
    (htp : truthy to_parent_id = true)
    (hpt : (moveDetach (s.ensure_basket_exists to_basket) task_id task fb fp).find_task
      (to_parent_id.getD "") = none) :
    s.move_task task_id to_basket to_parent_id =
      (false, moveDetach (s.ensure_basket_exists to_basket) task_id task fb fp) := by
  simp only [moveDetach] at hpt ⊢
  simp only [TodoData.move_task]
  rw [if_neg (by rw [hv]; decide)]
  simp only [hloc, hft, htp, if_true]
  simp only [hpt]

theorem move_task_attach_parent (s : TodoData) (task_id to_basket : String)
    (to_parent_id : Option String) (task p : Task) (fb : String) (fp : Option String)
    (hv : TodoData.is_valid_basket to_basket = true)
    (hloc : (s.ensure_basket_exists to_basket).find_task_location task_id = some (fb, fp))
    (hft : (s.ensure_basket_exists to_basket).find_task task_id = some task)
    (htp : truthy to_parent_id = true)
    (hpt : (moveDetach (s.ensure_basket_exists to_basket) task_id task fb fp).find_task
      (to_parent_id.getD "") = some p) :
    s.move_task task_id to_basket to_parent_id =
      (true, (moveDetach (s.ensure_basket_exists to_basket) task_id task fb fp).mutate_at
        (to_parent_id.getD "") (fun q => q.add_child task)) := by
  simp only [moveDetach] at hpt ⊢
  simp only [TodoData.move_task]
  rw [if_neg (by rw [hv]; decide)]
  simp only [hloc, hft, htp, if_true]
  simp only [hpt]

theorem move_task_attach_root (s : TodoData) (task_id to_basket : String)
    (to_parent_id : Option String) (task : Task) (fb : String) (fp : Option String)
    (hv : TodoData.is_valid_basket to_basket = true)
    (hloc : (s.ensure_basket_exists to_basket).find_task_location task_id = some (fb, fp))
    (hft : (s.ensure_basket_exists to_basket).find_task task_id = some task)
    (htp : truthy to_parent_id = false) :
    s.move_task task_id to_basket to_parent_id =
      (true, { moveDetach (s.ensure_basket_exists to_basket) task_id task fb fp with
        baskets := dictSet
          (moveDetach (s.ensure_basket_exists to_basket) task_id task fb fp).baskets
          to_basket
          (TaskList.snoc ((dictGet (moveDetach (s.ensure_basket_exists to_basket)
            task_id task fb fp).baskets to_basket).getD .nil) task) }) := by
  simp only [moveDetach]
  simp only [TodoData.move_task]
  rw [if_neg (by rw [hv]; decide)]
  simp only [hloc, hft, htp]
  rw [if_neg (by decide)]

def c1A : Task := .mk "A" "Task A" false false .nil "2020-01-01" ""

def c1Store : TodoData :=
  { baskets := [("Inbox", .cons c1A .nil)], index := [("A", c1A)] }

/-- C1 counterexample: `move_task` to a fresh valid date basket with a bogus
destination parent id returns failure, yet the store has observably changed:
the task is gone from its source basket (stranded; it survives only in the
index) and the destination basket has been materialized. -/
theorem c1_counterexample :
    (c1Store.move_task "A" "2026-10-12" (some "ZZ")).1 = false ∧
    (c1Store.move_task "A" "2026-10-12" (some "ZZ")).2.baskets =
      [("Inbox", TaskList.nil), ("2026-10-12", TaskList.nil)] ∧
    c1Store.baskets = [("Inbox", TaskList.cons c1A TaskList.nil)] ∧
    (c1Store.move_task "A" "2026-10-12" (some "ZZ")).2.baskets ≠ c1Store.baskets := by
  refine ⟨rfl, rfl, rfl, ?_⟩
  intro h
  rw [show (c1Store.move_task "A" "2026-10-12" (some "ZZ")).2.baskets =
    [("Inbox", TaskList.nil), ("2026-10-12", TaskList.nil)] from rfl,
    show c1Store.baskets = [("Inbox", TaskList.cons c1A TaskList.nil)] from rfl] at h
  injection h with h1 h2
  exact List.noConfusion h2

/-- C1 (corrected): a failed `move_task` does not leave the store unchanged in
general. Exactly three failure shapes exist: an invalid destination basket
leaves the store untouched; an unlocatable or unindexed task id leaves the
store with the destination basket materialized; and a truthy destination
parent id that does not resolve leaves the store with the destination
materialized and the task already detached from its source (stranded). -/
theorem c1_move_task_failure (s : TodoData) (task_id to_basket : String)
    (to_parent_id : Option String)
    (h : (s.move_task task_id to_basket to_parent_id).1 = false) :
    (s.move_task task_id to_basket to_parent_id).2 = s ∨
    (s.move_task task_id to_basket to_parent_id).2 = s.ensure_basket_exists to_basket ∨
    (∃ task fb fp,
      (s.ensure_basket_exists to_basket).find_task_location task_id = some (fb, fp) ∧
      (s.ensure_basket_exists to_basket).find_task task_id = some task ∧
      truthy to_parent_id = true ∧
      (moveDetach (s.ensure_basket_exists to_basket) task_id task fb fp).find_task
        (to_parent_id.getD "") = none ∧
      (s.move_task task_id to_basket to_parent_id).2 =
        moveDetach (s.ensure_basket_exists to_basket) task_id task fb fp) := by
  by_cases hv : TodoData.is_valid_basket to_basket = true
  · rcases hloc : (s.ensure_basket_exists to_basket).find_task_location task_id
      with _ | ⟨fb, fp⟩
    · rw [move_task_noloc s task_id to_basket to_parent_id hv hloc]
      right; left; rfl
    · rcases hft : (s.ensure_basket_exists to_basket).find_task task_id with _ | task
      · rw [move_task_notask s task_id to_basket to_parent_id fb fp hv hloc hft]
        right; left; rfl
      · by_cases htp : truthy to_parent_id = true
        · rcases hpt : (moveDetach (s.ensure_basket_exists to_basket) task_id task fb
            fp).find_task (to_parent_id.getD "") with _ | p
          · rw [move_task_strand s task_id to_basket to_parent_id task fb fp hv hloc hft
              htp hpt]
            exact Or.inr (Or.inr ⟨task, fb, fp, rfl, rfl, htp, hpt, rfl⟩)
          · rw [move_task_attach_parent s task_id to_basket to_parent_id task p fb fp hv
              hloc hft htp hpt] at h
            exact Bool.noConfusion (show (true : Bool) = false from h)
        · have htp2 : truthy to_parent_id = false := by
            cases he : truthy to_parent_id
            · rfl
            · exact absurd he htp
          rw [move_task_attach_root s task_id to_basket to_parent_id task fb fp hv hloc
            hft htp2] at h
          exact Bool.noConfusion (show (true : Bool) = false from h)
  · have hv2 : TodoData.is_valid_basket to_basket = false := by
      cases he : TodoData.is_valid_basket to_basket
      · rfl
      · exact absurd he hv
    rw [move_task_invalid s task_id to_basket to_parent_id hv2]
    left; rfl

theorem c1_move_task_failure_witness :
    (c1Store.move_task "A" "2026-10-12" (some "ZZ")).1 = false ∧
    ((c1Store.move_task "A" "2026-10-12" (some "ZZ")).2 = c1Store ∨
    (c1Store.move_task "A" "2026-10-12" (some "ZZ")).2 =
      c1Store.ensure_basket_exists "2026-10-12" ∨
    (∃ task fb fp,
      (c1Store.ensure_basket_exists "2026-10-12").find_task_location "A" = some (fb, fp) ∧
      (c1Store.ensure_basket_exists "2026-10-12").find_task "A" = some task ∧
      truthy (some "ZZ") = true ∧
      (moveDetach (c1Store.ensure_basket_exists "2026-10-12") "A" task fb fp).find_task
        ((some "ZZ").getD "") = none ∧
      (c1Store.move_task "A" "2026-10-12" (some "ZZ")).2 =
        moveDetach (c1Store.ensure_basket_exists "2026-10-12") "A" task fb fp)) :=
  ⟨rfl, c1_move_task_failure c1Store "A" "2026-10-12" (some "ZZ") rfl⟩

/-! ### Index consistency (C2) -/

/-- Spec-side: the manual recursive walk of the baskets mapping, basket by
basket in insertion order, searching each root task's subtree depth-first. -/
def specWalkList (i : String) : List (String × TaskList) → Option Task
  | [] => none
  | kv :: rest =>
    match TaskList.findInList kv.2 i with
    | some t => some t
    | none => specWalkList i rest

def specWalkFind (s : TodoData) (i : String) : Option Task := specWalkList i s.baskets

theorem dictGet_append_of_some {α : Type} (l1 l2 : List (String × α)) (k : String) (v : α)
    (h : dictGet l1 k = some v) : dictGet (l1 ++ l2) k = some v := by
  induction l1 with
  | nil => exact absurd h (by simp [dictGet])
  | cons kv rest ih =>
    obtain ⟨a, b⟩ := kv
    have h' : (if a = k then some b else dictGet rest k) = some v := h
    show (if a = k then some b else dictGet (rest ++ l2) k) = some v
    by_cases ha : a = k
    · rw [if_pos ha]
      rw [if_pos ha] at h'
      exact h'
    · rw [if_neg ha]
      rw [if_neg ha] at h'
      exact ih h'

theorem dictGet_append_of_none {α : Type} (l1 l2 : List (String × α)) (k : String)
    (h : dictGet l1 k = none) : dictGet (l1 ++ l2) k = dictGet l2 k := by
  induction l1 with
  | nil => rfl
  | cons kv rest ih =>
    obtain ⟨a, b⟩ := kv
    have h' : (if a = k then some b else dictGet rest k) = none := h
    show (if a = k then some b else dictGet (rest ++ l2) k) = dictGet l2 k
    by_cases ha : a = k
    · rw [if_pos ha] at h'
      exact Option.noConfusion h'
    · rw [if_neg ha]
      rw [if_neg ha] at h'
      exact ih h'

mutual
theorem find_task_eq_nodes_get : ∀ (t : Task) (i : String),
    Task.find_task t i = dictGet (Task.nodes t) i
  | .mk tid ti c co ch ca d, i => by
    show (if tid = i then some (Task.mk tid ti c co ch ca d)
      else TaskList.findInList ch i) =
      (if tid = i then some (Task.mk tid ti c co ch ca d)
      else dictGet (TaskList.nodesL ch) i)
    by_cases h : tid = i
    · rw [if_pos h, if_pos h]
    · rw [if_neg h, if_neg h]
      exact findInList_eq_nodesL_get ch i
theorem findInList_eq_nodesL_get : ∀ (ts : TaskList) (i : String),
    TaskList.findInList ts i = dictGet (TaskList.nodesL ts) i
  | .nil, _ => rfl
  | .cons t ts, i => by
    unfold TaskList.findInList
    rw [find_task_eq_nodes_get t i]
    cases hg : dictGet (Task.nodes t) i with
    | some v =>
      rw [show TaskList.nodesL (.cons t ts) = Task.nodes t ++ TaskList.nodesL ts from rfl]
      rw [dictGet_append_of_some _ _ _ _ hg]
    | none =>
      rw [show TaskList.nodesL (.cons t ts) = Task.nodes t ++ TaskList.nodesL ts from rfl]
      rw [dictGet_append_of_none _ _ _ hg]
      exact findInList_eq_nodesL_get ts i
end

theorem specWalkList_eq (i : String) : ∀ (bs : List (String × TaskList)),
    specWalkList i bs = dictGet (storeNodesOf bs) i
  | [] => rfl
  | kv :: rest => by
    unfold specWalkList
    rw [findInList_eq_nodesL_get kv.2 i]
    cases hg : dictGet (TaskList.nodesL kv.2) i with
    | some v =>
      rw [show storeNodesOf (kv :: rest) = TaskList.nodesL kv.2 ++ storeNodesOf rest from rfl]
      rw [dictGet_append_of_some _ _ _ _ hg]
    | none =>
      rw [show storeNodesOf (kv :: rest) = TaskList.nodesL kv.2 ++ storeNodesOf rest from rfl]
      rw [dictGet_append_of_none _ _ _ hg]
      exact specWalkList_eq i rest

mutual
theorem nodes_pair_id : ∀ (t : Task) (p : String × Task), p ∈ Task.nodes t → p.2.id = p.1
  | .mk i ti c co ch ca d, p, hp => by
    rw [show Task.nodes (.mk i ti c co ch ca d) =
      (i, Task.mk i ti c co ch ca d) :: TaskList.nodesL ch from rfl] at hp
    rcases List.mem_cons.mp hp with rfl | hp
    · rfl
    · exact nodesL_pair_id ch p hp
theorem nodesL_pair_id : ∀ (ts : TaskList) (p : String × Task),
    p ∈ TaskList.nodesL ts → p.2.id = p.1
  | .nil, _, hp => nomatch hp
  | .cons t ts, p, hp => by
    rw [show TaskList.nodesL (.cons t ts) = Task.nodes t ++ TaskList.nodesL ts from rfl] at hp
    rcases List.mem_append.mp hp with hp | hp
    · exact nodes_pair_id t p hp
    · exact nodesL_pair_id ts p hp
end

theorem storeNodes_pair_id : ∀ (bs : List (String × TaskList)) (p : String × Task),
    p ∈ storeNodesOf bs → p.2.id = p.1
  | [], _, hp => nomatch hp
  | kv :: rest, p, hp => by
    rw [show storeNodesOf (kv :: rest) =
      TaskList.nodesL kv.2 ++ storeNodesOf rest from rfl] at hp
    rcases List.mem_append.mp hp with hp | hp
    · exact nodesL_pair_id kv.2 p hp
    · exact storeNodes_pair_id rest p hp

theorem dictGet_erase_none {α : Type} (l : List (String × α)) (i k : String)
    (h : dictGet l k = none) : dictGet (dictErase l i) k = none := by
  induction l with
  | nil => rfl
  | cons kv rest ih =>
    obtain ⟨a, b⟩ := kv
    have h' : (if a = k then some b else dictGet rest k) = none := h
    by_cases hak : a = k
    · rw [if_pos hak] at h'
      exact Option.noConfusion h'
    · rw [if_neg hak] at h'
      show dictGet (if a = i then rest else (a, b) :: dictErase rest i) k = none
      by_cases hai : a = i
      · rw [if_pos hai]
        exact h'
      · rw [if_neg hai]
        show (if a = k then some b else dictGet (dictErase rest i) k) = none
        rw [if_neg hak]
        exact ih h'

mutual
theorem dictGet_indexRemoveTask_none (k : String) : ∀ (idx : List (String × Task)) (t : Task),
    dictGet idx k = none → dictGet (indexRemoveTask idx t) k = none
  | idx, .mk i ti c co ch ca d, h => by
    unfold indexRemoveTask
    exact dictGet_indexRemoveList_none k _ ch (dictGet_erase_none idx i k h)
theorem dictGet_indexRemoveList_none (k : String) :
    ∀ (idx : List (String × Task)) (ts : TaskList),
    dictGet idx k = none → dictGet (indexRemoveList idx ts) k = none
  | _, .nil, h => h
  | idx, .cons t ts, h => by
    unfold indexRemoveList
    exact dictGet_indexRemoveList_none k _ ts (dictGet_indexRemoveTask_none k idx t h)
end

theorem dictGet_indexRemoveTask_self (idx : List (String × Task)) (t : Task)
    (hn : (dictKeys idx).Nodup) : dictGet (indexRemoveTask idx t) t.id = none := by
  cases t with
  | mk i ti c co ch ca d =>
    unfold indexRemoveTask
    exact dictGet_indexRemoveList_none _ _ ch (dictGet_erase_self idx i hn)

theorem dictKeys_append {α : Type} (l1 l2 : List (String × α)) :
    dictKeys (l1 ++ l2) = dictKeys l1 ++ dictKeys l2 := by
  simp [dictKeys]

theorem dictSet_of_not_mem {α : Type} (l : List (String × α)) (k : String) (v : α)
    (h : k ∉ dictKeys l) : dictSet l k v = l ++ [(k, v)] := by
  induction l with
  | nil => rfl
  | cons kv rest ih =>
    obtain ⟨a, b⟩ := kv
    simp only [dictKeys, List.map_cons, List.mem_cons] at h
    push_neg at h
    show (if a = k then (a, v) :: rest else (a, b) :: dictSet rest k v) = _
    rw [if_neg (fun he => h.1 he.symm)]
    rw [ih h.2]
    rfl

mutual
theorem indexInsertTask_append : ∀ (t : Task) (idx : List (String × Task)),
    (Task.ids t).Nodup → (∀ j ∈ Task.ids t, j ∉ dictKeys idx) →
    indexInsertTask idx t = idx ++ Task.nodes t
  | .mk i ti c co ch ca d, idx, hn, hd => by
    rw [task_ids_eq] at hn hd
    rw [List.nodup_cons] at hn
    have hni : i ∉ dictKeys idx := hd i (List.mem_cons_self i _)
    have hdd : ∀ j ∈ TaskList.idsL ch,
        j ∉ dictKeys (idx ++ [(i, Task.mk i ti c co ch ca d)]) := by
      intro j hj hmem
      rw [dictKeys_append] at hmem
      rcases List.mem_append.mp hmem with hm | hm
      · exact hd j (List.mem_cons_of_mem i hj) hm
      · have hji : j = i := by simpa [dictKeys] using hm
        exact hn.1 (hji ▸ hj)
    unfold indexInsertTask
    rw [dictSet_of_not_mem idx i _ hni]
    rw [indexInsertList_append ch (idx ++ [(i, Task.mk i ti c co ch ca d)]) hn.2 hdd]
    rw [List.append_assoc]
    rfl
theorem indexInsertList_append : ∀ (ts : TaskList) (idx : List (String × Task)),
    (TaskList.idsL ts).Nodup → (∀ j ∈ TaskList.idsL ts, j ∉ dictKeys idx) →
    indexInsertList idx ts = idx ++ TaskList.nodesL ts
  | .nil, idx, _, _ => by
    rw [show TaskList.nodesL .nil = [] from rfl, List.append_nil]
    rfl
  | .cons t ts, idx, hn, hd => by
    rw [tasklist_idsL_cons] at hn hd
    rw [List.nodup_append] at hn
    have hdd : ∀ j ∈ TaskList.idsL ts, j ∉ dictKeys (idx ++ Task.nodes t) := by
      intro j hj hmem
      rw [dictKeys_append] at hmem
      rcases List.mem_append.mp hmem with hm | hm
      · exact hd j (List.mem_append_right _ hj) hm
      · exact hn.2.2 (show j ∈ Task.ids t from hm) hj
    unfold indexInsertList
    rw [indexInsertTask_append t idx hn.1 (fun j hj => hd j (List.mem_append_left _ hj))]
    rw [indexInsertList_append ts (idx ++ Task.nodes t) hn.2.1 hdd]
    rw [List.append_assoc]
    rfl
end

theorem rebuild_fold_append : ∀ (bs : List (String × TaskList)) (acc : List (String × Task)),
    (storeIdsOf bs).Nodup → (∀ j ∈ storeIdsOf bs, j ∉ dictKeys acc) →
    bs.foldl (fun idx kv => indexInsertList idx kv.2) acc = acc ++ storeNodesOf bs := by
  intro bs
  induction bs with
  | nil =>
    intro acc _ _
    rw [show storeNodesOf [] = [] from rfl, List.append_nil]
    rfl
  | cons kv rest ih =>
    intro acc hn hd
    rw [storeIdsOf_cons] at hn hd
    rw [List.nodup_append] at hn
    have hdd : ∀ j ∈ storeIdsOf rest, j ∉ dictKeys (acc ++ TaskList.nodesL kv.2) := by
      intro j hj hmem
      rw [dictKeys_append] at hmem
      rcases List.mem_append.mp hmem with hm | hm
      · exact hd j (List.mem_append_right _ hj) hm
      · exact hn.2.2 (show j ∈ TaskList.idsL kv.2 from hm) hj
    rw [List.foldl_cons]
    rw [indexInsertList_append kv.2 acc hn.1 (fun j hj => hd j (List.mem_append_left _ hj))]
    rw [ih (acc ++ TaskList.nodesL kv.2) hn.2.1 hdd]
    rw [List.append_assoc]
    rfl

theorem rebuild_index_eq (t : TodoData) (hnd : (storeIdsOf t.baskets).Nodup) :
    (t.rebuild_index).index = storeNodesOf t.baskets := by
  show t.baskets.foldl (fun idx kv => indexInsertList idx kv.2) [] = _
  rw [rebuild_fold_append t.baskets [] hnd (fun j _ hmem => by simp [dictKeys] at hmem)]
  rw [List.nil_append]

/-- On an index-consistent store, `delete_task` either removes the id from the
index, or fails without touching the store at all. -/
theorem delete_task_removes (s : TodoData) (i : String)
    (hcons : s.index = storeNodesOf s.baskets)
    (hnd : (storeIdsOf s.baskets).Nodup) :
    (s.delete_task i).2.find_task i = none ∨ (s.delete_task i).2 = s := by
  rcases hf : s.find_task i with _ | task
  · right
    simp only [TodoData.delete_task, hf]
  · rcases hloc : s.find_task_location i with _ | ⟨bn, pid⟩
    · right
      simp only [TodoData.delete_task, hf, hloc]
    · left
      have hid : task.id = i := by
        have hmem := dictGet_some_mem _ _ _ (show dictGet s.index i = some task from hf)
        rw [hcons] at hmem
        exact storeNodes_pair_id s.baskets (i, task) hmem
      have hkn : (dictKeys s.index).Nodup := by
        rw [hcons]
        exact hnd
      have hrm : dictGet (indexRemoveTask s.index task) i = none := by
        rw [← hid]
        exact dictGet_indexRemoveTask_self s.index task hkn
      simp only [TodoData.delete_task, hf, hloc]
      by_cases htp : truthy pid = true
      · rw [htp, if_pos rfl]
        cases hp : TodoData.find_task
          { baskets := s.baskets, index := indexRemoveTask s.index task }
          (pid.getD "") with
        | some parent =>
          show dictGet ((indexRemoveTask s.index task).map
            (fun kv => (kv.1, Task.updT (pid.getD "")
              (fun p => p.remove_child i) kv.2))) i = none
          rw [dictGet_map_values, hrm]
          rfl
        | none =>
          exact hrm
      · have htp2 : truthy pid = false := by
          cases he : truthy pid
          · rfl
          · exact absurd he htp
        rw [htp2]
        rw [if_neg (by decide)]
        exact hrm

def c2A : Task := .mk "A" "Task A" false false .nil "2020-01-01" ""

def c2s0 : TodoData := TodoData.init []

def c2s1 : TodoData := (c2s0.add_task "Inbox" c2A none).2

def c2s2 : TodoData := (c2s1.move_task "A" "2026-10-12" (some "ZZ")).2

def c2W : TodoData :=
  { baskets := [("Inbox", .cons c2A .nil)], index := [("A", c2A)] }

/-- C2 counterexample: after a successful `add_task` followed by a stranding
`move_task` (bogus destination parent), the index still resolves the task's id
while the manual recursive walk of `baskets` no longer reaches it, so
`find_task` and the walk disagree and the index holds an id with no reachable
task. -/
theorem c2_counterexample :
    (c2s0.add_task "Inbox" c2A none).1 = true ∧
    (c2s1.move_task "A" "2026-10-12" (some "ZZ")).1 = false ∧
    c2s2.find_task "A" = some c2A ∧
    specWalkFind c2s2 "A" = none :=
  ⟨rfl, rfl, rfl, rfl⟩

/-- C2 (corrected): under the index-consistency invariant (the index is
exactly the preorder node list of `baskets`, with globally unique ids),
`find_task` coincides with the manual recursive walk of `baskets`, the index
ids are exactly the reachable ids (each exactly once), and every `delete_task`
call either removes the id from the index or leaves the store untouched.
`rebuild_index` — and hence every load — establishes the invariant, but the
stranding `move_task` failure path breaks it, so it does not survive arbitrary
operation sequences. -/
theorem c2_index_consistency (s t : TodoData)
    (hcons : s.index = storeNodesOf s.baskets)
    (hnd : (storeIdsOf s.baskets).Nodup)
    (hnd2 : (storeIdsOf t.baskets).Nodup) :
    (∀ i, s.find_task i = specWalkFind s i) ∧
    dictKeys s.index = storeIdsOf s.baskets ∧
    (dictKeys s.index).Nodup ∧
    (∀ i, (s.delete_task i).2.find_task i = none ∨ (s.delete_task i).2 = s) ∧
    (t.rebuild_index).index = storeNodesOf t.baskets := by
  refine ⟨?_, ?_, ?_, fun i => delete_task_removes s i hcons hnd, rebuild_index_eq t hnd2⟩
  · intro i
    show dictGet s.index i = specWalkFind s i
    rw [hcons, show specWalkFind s i = specWalkList i s.baskets from rfl,
      specWalkList_eq i s.baskets]
  · rw [hcons]
    rfl
  · rw [hcons]
    exact hnd

theorem c2_index_consistency_witness :
    c2W.find_task "A" = specWalkFind c2W "A" ∧
    dictKeys c2W.index = storeIdsOf c2W.baskets ∧
    (dictKeys c2W.index).Nodup ∧
    ((c2W.delete_task "A").2.find_task "A" = none ∨ (c2W.delete_task "A").2 = c2W) ∧
    (c2W.rebuild_index).index = storeNodesOf c2W.baskets :=
  have h := c2_index_consistency c2W c2W rfl (by decide) (by decide)
  ⟨h.1 "A", h.2.1, h.2.2.1, h.2.2.2.1 "A", h.2.2.2.2⟩

end Tltd
